import Mathlib

/-!
# Verification of the arithmetic-coding codec

A shallow embedding of `src/entropy_encoders/arithmetic_coding.py` over exact
rationals (`ℚ`).  The Python code computes with `decimal.Decimal` under a
caller-chosen precision; exact rational arithmetic models the "sufficient
precision" regime the specification speaks about.  The two loops of the source
that are not structurally bounded — the `while True` search of
`__minimize_entropy` and the decode `while` loop — are given explicit fuel
parameters; exhausting the fuel models `Decimal` precision exhaustion
(respectively a non-terminating decode) and is reported as a distinct outcome.

Tables are ordered association lists `List (α × ℚ)`, mirroring Python's
insertion-ordered `dict`; the order is load-bearing for cumulative ranges.
-/

set_option linter.unusedSectionVars false

namespace ArithmeticCoding

variable {α : Type} [DecidableEq α] {β : Type}

/-- Python exceptions that the source can raise, as an error type.
`assertFailed` models the `assert` statements of `encode` and
`__create_probability_table`; `keyError` models a failing `dict` lookup
(`range_table[symbol]`); `precisionOut` models `decimal` precision exhaustion
inside `__minimize_entropy` (the fuel of the embedding running out). -/
inductive PyErr : Type
  | assertFailed : PyErr
  | keyError : PyErr
  | precisionOut : PyErr
  deriving DecidableEq, Repr

/-- One character of a `Decimal` string: a decimal digit, the point `.`, the
sign `-`, or the letter `E` of scientific notation. -/
inductive DecChar : Type
  | digit : ℕ → DecChar
  | dot : DecChar
  | minus : DecChar
  | exp : DecChar
  deriving DecidableEq, Repr

/-- The `ArithmeticEncodingReturn` namedtuple.  The `decimal` field is the
character string `str(Decimal)[2:]`: in the plain-notation regime this is the
digit string after `"0."`, but when `str` switches to scientific notation
(adjusted exponent below `-6`) the blind `[2:]` slice keeps sign/exponent
characters, so the field is kept as a list of `Decimal` string characters. -/
structure ArithmeticEncodingReturn (α : Type) : Type where
  decimal : List DecChar
  probability_table : List (α × ℚ)
  end_of_sequence : α
  deriving DecidableEq, Repr

instance {ε σ : Type} [DecidableEq ε] [DecidableEq σ] : DecidableEq (Except ε σ) :=
  fun a b =>
    match a, b with
    | .ok x, .ok y => if h : x = y then .isTrue (by rw [h]) else .isFalse (by simp [h])
    | .error x, .error y => if h : x = y then .isTrue (by rw [h]) else .isFalse (by simp [h])
    | .ok _, .error _ => .isFalse (by simp)
    | .error _, .ok _ => .isFalse (by simp)

/-- `10 ^ k` as a rational, via kernel-friendly natural-number arithmetic. -/
def pow10 (k : ℕ) : ℚ := ((10 ^ k : ℕ) : ℚ)

/-- Python's `abs` on the engine's numbers. -/
def pyAbs (q : ℚ) : ℚ := if q < 0 then -q else q

/-- First-match association-list lookup: Python `dict` subscript `d[s]`
(returns `none` where Python raises `KeyError`). -/
def lookupQ : List (α × β) → α → Option β
  | [], _ => none
  | (k, v) :: rest, s => if k = s then some v else lookupQ rest s

/-- The keys of a table, in table order. -/
def keysOf (pt : List (α × β)) : List α := pt.map Prod.fst

/-- Sum of the values of a probability table, `sum(probability_table.values())`. -/
def sumProbs (pt : List (α × ℚ)) : ℚ := (pt.map Prod.snd).sum

/-- The probability a table assigns to a symbol (`probability_table[symbol]`;
`0` stands for the absent case, which callers rule out). -/
def probOf (pt : List (α × ℚ)) (s : α) : ℚ := (lookupQ pt s).getD 0

/-- Sum of the probabilities of the table entries strictly before the first
entry for `s`: the cumulative lower bound that the source's `prev` accumulator
reaches when it meets `s`. -/
def cdfBefore : List (α × ℚ) → α → ℚ
  | [], _ => 0
  | (k, p) :: rest, s => if k = s then 0 else p + cdfBefore rest s

/-- The loop of `__init_range_table`, generalised over the running `prev`
accumulator: each symbol receives `[prev, prev + probability)` in table
order. -/
def initRanges (prev : ℚ) : List (α × ℚ) → List (α × ℚ × ℚ)
  | [] => []
  | (s, p) :: rest => (s, prev, prev + p) :: initRanges (prev + p) rest

/-- `__init_range_table`: subdivide `[0, 1)` by the table's probabilities. -/
def initRangeTable (pt : List (α × ℚ)) : List (α × ℚ × ℚ) := initRanges 0 pt

/-- The rebuild loop of `__update_range_table`, generalised over the running
`prev` accumulator: each symbol receives `[prev, prev + probability * width)`
in table order. -/
def scaledRanges (prev width : ℚ) : List (α × ℚ) → List (α × ℚ × ℚ)
  | [] => []
  | (s, p) :: rest => (s, prev, prev + p * width) :: scaledRanges (prev + p * width) width rest

/-- The final value of the `prev` accumulator of `__update_range_table`'s
loop (which the source assigns to `upper` on every iteration). -/
def scaledFinal (prev width : ℚ) : List (α × ℚ) → ℚ
  | [] => prev
  | (_, p) :: rest => scaledFinal (prev + p * width) width rest

/-- `__update_range_table`: look up `symbol`'s current range, then re-subdivide
that range by the table's probabilities, returning the new range table together
with the returned `(lower, upper)` pair.  `none` models the `KeyError` raised
when `symbol` is absent from `range_table`.

The source mutates the `dict` in place; since `range_table`'s key set always
equals the probability table's key set in every reachable call (it is created
by `__init_range_table` from the same table), rebuilding the association list
in table order is the same update. -/
def updateRangeTable (range_table : List (α × ℚ × ℚ)) (pt : List (α × ℚ)) (symbol : α) :
    Option (List (α × ℚ × ℚ) × ℚ × ℚ) :=
  match lookupQ range_table symbol with
  | none => none
  | some (lower, upper) =>
      let width := upper - lower
      some (scaledRanges lower width pt, lower,
        if pt.isEmpty then upper else scaledFinal lower width pt)

/-- Round a rational to the nearest integer, ties to the even integer:
the `ROUND_HALF_EVEN` default rounding of `decimal`. -/
def roundHalfEven (q : ℚ) : ℤ :=
  let f := ⌊q⌋
  let r := q - f
  if r < 1 / 2 then f
  else if 1 / 2 < r then f + 1
  else if f % 2 = 0 then f else f + 1

/-- `lower.quantize(jump)` for `jump = 10 ^ (-k)`: round `lower` to `k`
decimal places with the context's default `ROUND_HALF_EVEN` rounding. -/
def quantizeHE (x : ℚ) (k : ℕ) : ℚ := (roundHalfEven (x * pow10 k) : ℚ) / pow10 k

/-- The inner `while start < upper` loop of `__minimize_entropy`: step `start`
by `jump` until it enters `[lower, upper)` (then return it) or leaves the
interval (then fall through, modelled as `none`).  Inside the loop guard
`start < upper`, the source's test `lower <= start < upper` is `lower ≤ start`.
The fuel is an upper bound on the iteration count; callers pass enough for the
loop's own exit condition to fire first. -/
def scanMult (fuel : ℕ) (lower upper jump start : ℚ) : Option ℚ :=
  match fuel with
  | 0 => none
  | f + 1 =>
      if start < upper then
        if lower ≤ start then some start
        else scanMult f lower upper jump (start + jump)
      else none

/-- The `while True` loop of `__minimize_entropy`, with `jump = 10 ^ (-k)` at
the current level and one unit of fuel per level.  Returns the found value
together with the level `k` it was found at — the (negated) exponent of the
`Decimal` the source returns, i.e. the number of digits of its fractional
string.  The per-level scan fuel `⌈(upper - start) / jump⌉ + 1` bounds the
inner loop's iterations, so the inner loop always stops by its own guard. -/
def minimizeAux (fuel k : ℕ) (lower upper : ℚ) : Option (ℚ × ℕ) :=
  match fuel with
  | 0 => none
  | f + 1 =>
      let jump : ℚ := 1 / pow10 k
      let start := quantizeHE lower k
      let sf := (⌈(upper - start) / jump⌉).toNat + 1
      match scanMult sf lower upper jump start with
      | some x => some (x, k)
      | none => minimizeAux f (k + 1) lower upper

/-- `__minimize_entropy`: coarsest-first search for a short decimal fraction in
`[lower, upper)`, starting at one digit (`jump = 0.1`). -/
def minimizeEntropy (fuel : ℕ) (lower upper : ℚ) : Option (ℚ × ℕ) :=
  minimizeAux fuel 1 lower upper

/-- Helper for `uniqueInOrder`: drop the elements already seen. -/
def uniqueAux (seen : List α) : List α → List α
  | [] => []
  | x :: xs => if x ∈ seen then uniqueAux seen xs else x :: uniqueAux (x :: seen) xs

/-- The symbols of a list in first-occurrence order: the iteration order of
`collections.Counter` built from the list. -/
def uniqueInOrder (l : List α) : List α := uniqueAux [] l

/-- `__create_probability_table`: frequency of each symbol divided by the
total count, symbols in first-occurrence order.  The `assert N != 0` of the
source is the `assertFailed` branch. -/
def createProbabilityTable (symbol_list : List α) : Except PyErr (List (α × ℚ)) :=
  if symbol_list.length = 0 then .error .assertFailed
  else .ok ((uniqueInOrder symbol_list).map fun s =>
    (s, (symbol_list.count s : ℚ) / symbol_list.length))

/-- The `for symbol in symbol_list` narrowing loop of `encode`.  The
accumulator carries the `(lower, upper)` of the latest step (`none` before the
first step; reading it with an empty `symbol_list` models the `NameError` the
source would raise, unreachable because `encode` first asserts the marker is
in the list). -/
def narrowLoop (pt : List (α × ℚ)) :
    List α → List (α × ℚ × ℚ) → Option (ℚ × ℚ) → Except PyErr (ℚ × ℚ)
  | [], _, none => .error .assertFailed
  | [], _, some lu => .ok lu
  | s :: rest, rt, _ =>
      match updateRangeTable rt pt s with
      | none => .error .keyError
      | some (rt2, lower, upper) => narrowLoop pt rest rt2 (some (lower, upper))

/-- The low `k` decimal digits (most significant first) of `c`: for
`c < 10 ^ k` these are all of `c`'s digits with leading zeros. -/
def decDigits (c : ℕ) : ℕ → List ℕ
  | 0 => []
  | k + 1 => c / 10 ^ k % 10 :: decDigits c k

/-- Number of decimal digits of the coefficient `c` (`"0"` has one digit);
fuel-based division loop, `c + 1` units always suffice. -/
def numDigitsAux : ℕ → ℕ → ℕ
  | 0, _ => 1
  | f + 1, c => if c < 10 then 1 else numDigitsAux f (c / 10) + 1

/-- Number of decimal digits of `c` as `Decimal` stores its coefficient. -/
def numDigits (c : ℕ) : ℕ := numDigitsAux c c

/-- `str` of the non-negative `Decimal` with coefficient `c` and exponent
`-k` (`k ≥ 1` for every value the selector produces), following
`Decimal.__str__`: plain positional notation when the adjusted exponent
`numDigits c - k - 1` is at least `-6` (the condition `leftdigits > -6` of
the source library), scientific notation `d[.ddd]E-n` otherwise.  Negative
coefficients cannot arise from the tables the data model admits (positive
probabilities), so no sign character is modelled. -/
def strDecimal (c k : ℕ) : List DecChar :=
  if k ≤ numDigits c + 5 then
    if numDigits c ≤ k then
      DecChar.digit 0 :: DecChar.dot :: (decDigits c k).map DecChar.digit
    else
      (decDigits (c / 10 ^ k) (numDigits c - k)).map DecChar.digit ++
        DecChar.dot :: (decDigits c k).map DecChar.digit
  else
    DecChar.digit (c / 10 ^ (numDigits c - 1)) ::
      ((if numDigits c = 1 then []
        else DecChar.dot :: (decDigits c (numDigits c - 1)).map DecChar.digit) ++
        DecChar.exp :: DecChar.minus ::
          (decDigits (k + 1 - numDigits c)
            (numDigits (k + 1 - numDigits c))).map DecChar.digit)

/-- `str(__minimize_entropy(...))[2:]`: the artifact's `decimal` field for
the selected fraction `x` held at exponent `-k`.  The slice blindly drops
the first two characters — `"0."` in the sub-one plain regime, but parts of
the coefficient in the other regimes, exactly as the source does. -/
def fracToDecimalField (x : ℚ) (k : ℕ) : List DecChar :=
  (strDecimal (x * pow10 k).num.toNat k).drop 2

/-- Numeric value of a digit list (most significant first). -/
def digitsVal (ds : List ℕ) : ℕ := ds.foldl (fun a d => 10 * a + d) 0

/-- Read a run of digit characters; `none` when any other character
appears. -/
def takeDigits : List DecChar → Option (List ℕ)
  | [] => some []
  | DecChar.digit d :: rest =>
      match takeDigits rest with
      | some ds => some (d :: ds)
      | none => none
  | _ => none

/-- Split a character list at the first `E`, keeping what precedes it and,
when present, what follows it. -/
def splitExp : List DecChar → List DecChar × Option (List DecChar)
  | [] => ([], none)
  | DecChar.exp :: rest => ([], some rest)
  | c :: rest =>
      match splitExp rest with
      | (a, b) => (c :: a, b)

/-- Parse the exponent part after `E`: an optional minus sign then a
non-empty digit run. -/
def parseExpPart : List DecChar → Option ℤ
  | DecChar.minus :: rest =>
      match takeDigits rest with
      | some ds => if ds = [] then none else some (-(digitsVal ds : ℤ))
      | none => none
  | rest =>
      match takeDigits rest with
      | some ds => if ds = [] then none else some ((digitsVal ds : ℤ))
      | none => none

/-- `Decimal("0." + field)`: the fractional digits may be followed by an
exponent part; any stray character (such as the minus a sliced scientific
string starts with) raises `InvalidOperation`, modelled as `none`. -/
def parsePyDecimalFrac (field : List DecChar) : Option ℚ :=
  match splitExp field with
  | (ds, none) =>
      match takeDigits ds with
      | some digits => some ((digitsVal digits : ℚ) / pow10 digits.length)
      | none => none
  | (ds, some rest) =>
      match takeDigits ds, parseExpPart rest with
      | some digits, some e =>
          some ((digitsVal digits : ℚ) / pow10 digits.length * (10 : ℚ) ^ e)
      | _, _ => none

/-- `encode`.  `precision` is the fuel of the `__minimize_entropy` search,
playing the role of the `Decimal` context precision that bounds how fine that
search may go in the source. -/
def encode (symbol_list : List α) (end_of_sequence : α) (precision : ℕ)
    (probability_table : Option (List (α × ℚ))) :
    Except PyErr (ArithmeticEncodingReturn α) :=
  if end_of_sequence ∈ symbol_list then
    match (match probability_table with
      | none => createProbabilityTable symbol_list
      | some t =>
          if end_of_sequence ∈ keysOf t then .ok t else .error .assertFailed :
        Except PyErr (List (α × ℚ))) with
    | .error e => .error e
    | .ok pt =>
        if pyAbs (sumProbs pt - 1) < 1 / pow10 5 then
          match narrowLoop pt symbol_list (initRangeTable pt) none with
          | .error e => .error e
          | .ok (lower, upper) =>
              match minimizeEntropy precision lower upper with
              | none => .error .precisionOut
              | some (x, k) => .ok ⟨fracToDecimalField x k, pt, end_of_sequence⟩
        else .error .assertFailed
  else .error .assertFailed

/-- Python `bisect.bisect_right`, written with fuel (each step at least halves
`hi - lo`, so fuel `hi - lo` always suffices; `bisectRight` passes the list
length). -/
def bisectAux (a : List ℚ) (x : ℚ) : ℕ → ℕ → ℕ → ℕ
  | 0, lo, _ => lo
  | f + 1, lo, hi =>
      if lo < hi then
        if x < a.getD ((lo + hi) / 2) 0 then bisectAux a x f lo ((lo + hi) / 2)
        else bisectAux a x f ((lo + hi) / 2 + 1) hi
      else lo

/-- `bisect.bisect_right(a, x)` over the whole list. -/
def bisectRight (a : List ℚ) (x : ℚ) : ℕ := bisectAux a x a.length 0 a.length

/-- Python list subscript with an `Int` index: non-negative indices from the
front, negative indices wrap from the back, out of range is `IndexError`
(`none`). -/
def pyGet (l : List β) (i : ℤ) : Option β :=
  if 0 ≤ i then l.get? i.toNat
  else if (-i).toNat ≤ l.length then l.get? (l.length - (-i).toNat)
  else none

/-- The `range_lower` CDF list built by `decode`'s first loop, generalised
over the running `prev` accumulator: the cumulative lower bound of each table
entry, in table order. -/
def rangeLowerList (prev : ℚ) : List (α × ℚ) → List ℚ
  | [] => []
  | (_, p) :: rest => prev :: rangeLowerList (prev + p) rest

/-- The decode `while symbol != end_of_sequence` loop.  One fuel unit per
iteration (`none` = the fuel ran out, i.e. the non-termination hazard the
source documents, or one of the impossible-index/zero-division errors).
Mirroring the source, the renormalisation (subtract the cumulative lower
bound, divide by the probability) happens before the termination test, so a
zero probability of the emitted symbol is a `ZeroDivisionError` (`none`) even
on the final symbol. -/
def decodeLoop (range_lower : List ℚ) (range_symbol : List α) (pt : List (α × ℚ))
    (eof : α) : ℕ → ℚ → List α → Option (List α)
  | 0, _, _ => none
  | fuel + 1, fraction, output =>
      match pyGet range_symbol ((bisectRight range_lower fraction : ℤ) - 1) with
      | none => none
      | some symbol =>
          match pyGet range_lower ((bisectRight range_lower fraction : ℤ) - 1),
              lookupQ pt symbol with
          | some rl, some p =>
              if p = 0 then none
              else if symbol = eof then some (output ++ [symbol])
              else decodeLoop range_lower range_symbol pt eof fuel
                ((fraction - rl) / p) (output ++ [symbol])
          | some _, none => none
          | none, _ => none

/-- `decode`.  `Decimal("0." + encoded.decimal)` is the parse step, whose
`InvalidOperation` on a mangled field is `none`; `fuel` bounds the loop's
iterations — the source's loop is unbounded and can run forever on
under-precise input (a hazard its docstring documents), which the embedding
also reports as `none`. -/
def decode (encoded : ArithmeticEncodingReturn α) (fuel : ℕ) : Option (List α) :=
  match parsePyDecimalFrac encoded.decimal with
  | none => none
  | some fraction =>
      decodeLoop (rangeLowerList 0 encoded.probability_table)
        (keysOf encoded.probability_table) encoded.probability_table
        encoded.end_of_sequence fuel fraction []

/-! ## Derived quantities used by the proofs

`encLow` and `encW` describe, in closed form, the interval the narrowing loop
reaches: starting from a parent interval of lower end `L` and width `W`,
processing the symbols `S` leaves the engine at lower end `L + encLow S * W`
and width `encW S * W` (up to the final `sumProbs` factor for the returned
upper end).  They are proof-side descriptions, derived below from the source
definitions, not part of the embedding itself. -/

/-- Closed form of the lower end of the narrowed interval (relative to a
parent interval of lower end `0` and width `1`). -/
def encLow (pt : List (α × ℚ)) : List α → ℚ
  | [] => 0
  | s :: rest => cdfBefore pt s + probOf pt s * encLow pt rest

/-- Closed form of the width factor of the narrowed interval. -/
def encW (pt : List (α × ℚ)) : List α → ℚ
  | [] => 1
  | s :: rest => probOf pt s * encW pt rest

/-! ## Lemmas about tables and ranges -/

theorem lookupQ_eq_none {pt : List (α × β)} {s : α} :
    lookupQ pt s = none ↔ s ∉ keysOf pt := by
  induction pt with
  | nil => simp [lookupQ, keysOf]
  | cons hd tl ih =>
      obtain ⟨k, v⟩ := hd
      by_cases h : k = s
      · subst h
        simp [lookupQ, keysOf]
      · simp [lookupQ, keysOf, h, Ne.symm h, ih]

theorem lookupQ_mem {pt : List (α × β)} {s : α} {v : β}
    (h : lookupQ pt s = some v) : (s, v) ∈ pt := by
  induction pt with
  | nil => simp [lookupQ] at h
  | cons hd tl ih =>
      obtain ⟨k, w⟩ := hd
      by_cases hk : k = s
      · subst hk
        simp [lookupQ] at h
        simp [h]
      · simp [lookupQ, hk] at h
        exact List.mem_cons_of_mem _ (ih h)

theorem probOf_mem {pt : List (α × ℚ)} {s : α} (h : s ∈ keysOf pt) :
    (s, probOf pt s) ∈ pt := by
  rcases ho : lookupQ pt s with _ | v
  · exact absurd (lookupQ_eq_none.mp ho) (by simpa using h)
  · simpa [probOf, ho] using lookupQ_mem ho

theorem probOf_pos {pt : List (α × ℚ)} (hpos : ∀ a p, (a, p) ∈ pt → 0 < p)
    {s : α} (h : s ∈ keysOf pt) : 0 < probOf pt s :=
  hpos s _ (probOf_mem h)

theorem cdfBefore_nonneg {pt : List (α × ℚ)} (hpos : ∀ a p, (a, p) ∈ pt → 0 < p)
    (s : α) : 0 ≤ cdfBefore pt s := by
  induction pt with
  | nil => simp [cdfBefore]
  | cons hd tl ih =>
      obtain ⟨k, p⟩ := hd
      have hp : 0 < p := hpos k p (by simp)
      have ih2 := ih (fun a q hq => hpos a q (List.mem_cons_of_mem _ hq))
      by_cases h : k = s <;> simp [cdfBefore, h] <;> positivity

theorem cdf_add_prob_le_sum {pt : List (α × ℚ)} (hpos : ∀ a p, (a, p) ∈ pt → 0 < p)
    {s : α} (h : s ∈ keysOf pt) : cdfBefore pt s + probOf pt s ≤ sumProbs pt := by
  induction pt with
  | nil => simp [keysOf] at h
  | cons hd tl ih =>
      obtain ⟨k, p⟩ := hd
      have htl : ∀ a q, (a, q) ∈ tl → 0 < q :=
        fun a q hq => hpos a q (List.mem_cons_of_mem _ hq)
      by_cases hk : k = s
      · subst hk
        have hsum : 0 ≤ sumProbs tl := by
          have : ∀ q ∈ tl.map Prod.snd, 0 ≤ q := by
            intro q hq
            obtain ⟨⟨a, q'⟩, hm, rfl⟩ := List.mem_map.mp hq
            exact le_of_lt (htl a q' hm)
          exact List.sum_nonneg this
        simp only [sumProbs] at hsum
        simp [cdfBefore, probOf, lookupQ, sumProbs]
        linarith
      · have hmem : s ∈ keysOf tl := by
          simpa [keysOf, hk, Ne.symm hk] using h
        have := ih htl hmem
        simp only [cdfBefore, probOf, lookupQ, if_neg hk, sumProbs,
          List.map_cons, List.sum_cons] at *
        linarith

theorem scaledFinal_eq (pt : List (α × ℚ)) (prev width : ℚ) :
    scaledFinal prev width pt = prev + sumProbs pt * width := by
  induction pt generalizing prev with
  | nil => simp [scaledFinal, sumProbs]
  | cons hd tl ih =>
      obtain ⟨k, p⟩ := hd
      simp only [scaledFinal, sumProbs, List.map_cons, List.sum_cons] at *
      rw [ih]
      ring

theorem lookupQ_scaledRanges {pt : List (α × ℚ)} {s : α} (h : s ∈ keysOf pt)
    (L W : ℚ) :
    lookupQ (scaledRanges L W pt) s =
      some (L + cdfBefore pt s * W, L + (cdfBefore pt s + probOf pt s) * W) := by
  induction pt generalizing L with
  | nil => simp [keysOf] at h
  | cons hd tl ih =>
      obtain ⟨k, p⟩ := hd
      by_cases hk : k = s
      · subst hk
        simp only [scaledRanges, lookupQ, if_pos rfl, cdfBefore, probOf,
          eq_self_iff_true, if_true, Option.getD_some, Option.some.injEq,
          Prod.mk.injEq]
        first
        | (refine ⟨?_, ?_⟩ <;> ring)
        | ring
      · have hmem : s ∈ keysOf tl := by simpa [keysOf, hk, Ne.symm hk] using h
        simp only [scaledRanges, lookupQ, if_neg hk, cdfBefore, probOf]
        rw [ih hmem]
        simp only [probOf, Option.some.injEq, Prod.mk.injEq]
        refine ⟨by ring, by ring⟩

theorem keysOf_scaledRanges (pt : List (α × ℚ)) (L W : ℚ) :
    keysOf (scaledRanges L W pt) = keysOf pt := by
  induction pt generalizing L with
  | nil => rfl
  | cons hd tl ih =>
      obtain ⟨k, p⟩ := hd
      simp [scaledRanges, keysOf] at *
      exact ih _

theorem initRanges_eq_scaledRanges (pt : List (α × ℚ)) (prev : ℚ) :
    initRanges prev pt = scaledRanges prev 1 pt := by
  induction pt generalizing prev with
  | nil => rfl
  | cons hd tl ih =>
      obtain ⟨k, p⟩ := hd
      simp [initRanges, scaledRanges, ih]

theorem updateRangeTable_eq {pt : List (α × ℚ)} {s : α} (h : s ∈ keysOf pt)
    (L W : ℚ) :
    updateRangeTable (scaledRanges L W pt) pt s =
      some (scaledRanges (L + cdfBefore pt s * W) (probOf pt s * W) pt,
        L + cdfBefore pt s * W,
        L + cdfBefore pt s * W + sumProbs pt * (probOf pt s * W)) := by
  have hne : pt ≠ [] := by rintro rfl; simp [keysOf] at h
  rw [updateRangeTable, lookupQ_scaledRanges h]
  have hw : L + (cdfBefore pt s + probOf pt s) * W - (L + cdfBefore pt s * W) =
      probOf pt s * W := by ring
  simp only [hw, List.isEmpty_iff, hne, if_false, scaledFinal_eq]

/-- The narrowing loop, run from a range table subdividing the interval of
lower end `L` and width `W`, lands on the interval described by `encLow` and
`encW`. -/
theorem narrowLoop_ok {pt : List (α × ℚ)} {S : List α} (hne : S ≠ [])
    (hkeys : ∀ s ∈ S, s ∈ keysOf pt) (L W : ℚ) (acc : Option (ℚ × ℚ)) :
    narrowLoop pt S (scaledRanges L W pt) acc =
      .ok (L + encLow pt S * W,
        L + encLow pt S * W + sumProbs pt * (encW pt S * W)) := by
  induction S generalizing L W acc with
  | nil => exact absurd rfl hne
  | cons s rest ih =>
      have hs : s ∈ keysOf pt := hkeys s (by simp)
      simp only [narrowLoop, updateRangeTable_eq hs]
      rcases rest with _ | ⟨r, rest'⟩
      · simp only [narrowLoop, encLow, encW, Except.ok.injEq, Prod.mk.injEq]
        refine ⟨by ring, by ring⟩
      · rw [ih (by simp) (fun a ha => hkeys a (List.mem_cons_of_mem _ ha))]
        simp only [encLow, encW, Except.ok.injEq, Prod.mk.injEq]
        refine ⟨by ring, by ring⟩

/-! ## Lemmas about the minimal-fraction selector -/

/-- The least multiple of `10 ^ (-k)` that is `≥ l`: the candidate the scan of
`__minimize_entropy` finds at granularity level `k` (when it is below
`upper`). -/
def ceilMul (l : ℚ) (k : ℕ) : ℚ := (⌈l * pow10 k⌉ : ℚ) / pow10 k

theorem pow10_pos (k : ℕ) : 0 < pow10 k := by
  have h : (0 : ℕ) < 10 ^ k := Nat.pos_pow_of_pos k (by norm_num)
  rw [pow10]
  exact_mod_cast h

theorem roundHalfEven_cases (q : ℚ) :
    roundHalfEven q = ⌊q⌋ ∨ (roundHalfEven q = ⌊q⌋ + 1 ∧ 1 / 2 ≤ q - ⌊q⌋) := by
  have hdef : roundHalfEven q =
      (if q - (⌊q⌋ : ℚ) < 1 / 2 then ⌊q⌋
        else if 1 / 2 < q - (⌊q⌋ : ℚ) then ⌊q⌋ + 1
        else if ⌊q⌋ % 2 = 0 then ⌊q⌋ else ⌊q⌋ + 1) := rfl
  rw [hdef]
  split
  · exact Or.inl rfl
  · rename_i h1
    split
    · rename_i h2
      exact Or.inr ⟨rfl, le_of_lt h2⟩
    · rename_i h2
      have heq : q - (⌊q⌋ : ℚ) = 1 / 2 := le_antisymm (not_lt.mp h2) (not_lt.mp h1)
      split
      · exact Or.inl rfl
      · exact Or.inr ⟨rfl, le_of_eq heq.symm⟩

theorem ceil_eq_floor_add_one_of_lt {m : ℚ} (h : (⌊m⌋ : ℚ) < m) : ⌈m⌉ = ⌊m⌋ + 1 := by
  have h1 : ⌈m⌉ ≤ ⌊m⌋ + 1 := Int.ceil_le.mpr (by exact_mod_cast le_of_lt (Int.lt_floor_add_one m))
  have h2 : (⌊m⌋ : ℚ) < (⌈m⌉ : ℚ) := lt_of_lt_of_le h (Int.le_ceil m)
  have h3 : ⌊m⌋ < ⌈m⌉ := by exact_mod_cast h2
  omega

theorem ceilMul_ge (l : ℚ) (k : ℕ) : l ≤ ceilMul l k := by
  have hp := pow10_pos k
  have h := Int.le_ceil (l * pow10 k)
  rw [ceilMul, le_div_iff hp]
  exact h

theorem ceilMul_le (l : ℚ) (k : ℕ) : ceilMul l k ≤ l + 1 / pow10 k := by
  have hp := pow10_pos k
  have h : (⌈l * pow10 k⌉ : ℚ) < l * pow10 k + 1 := Int.ceil_lt_add_one _
  rw [ceilMul, div_le_iff hp]
  have : (l + 1 / pow10 k) * pow10 k = l * pow10 k + 1 := by
    field_simp
  rw [this]
  exact le_of_lt h

/-- The `quantize` rounding lands either exactly on the least multiple
`≥ l` of the granularity, or one granularity step below it (in the latter
case strictly below `l`). -/
theorem quantizeHE_cases (l : ℚ) (k : ℕ) :
    quantizeHE l k = ceilMul l k ∨
      (quantizeHE l k < l ∧ quantizeHE l k + 1 / pow10 k = ceilMul l k) := by
  have hp := pow10_pos k
  set m := l * pow10 k with hm
  rcases roundHalfEven_cases m with h | ⟨h, hhalf⟩
  · by_cases hint : (⌊m⌋ : ℚ) = m
    · left
      have hceil : ⌈m⌉ = ⌊m⌋ := by
        have : ⌈m⌉ ≤ ⌊m⌋ := Int.ceil_le.mpr (le_of_eq hint.symm)
        have h2 : ⌊m⌋ ≤ ⌈m⌉ := Int.floor_le_ceil m
        omega
      rw [quantizeHE, ceilMul, h, hceil]
    · right
      have hlt : (⌊m⌋ : ℚ) < m := lt_of_le_of_ne (Int.floor_le m) hint
      have hceil : ⌈m⌉ = ⌊m⌋ + 1 := ceil_eq_floor_add_one_of_lt hlt
      constructor
      · rw [quantizeHE, h, div_lt_iff hp]
        exact hlt
      · rw [quantizeHE, ceilMul, h, hceil]
        push_cast
        field_simp
  · left
    have hlt : (⌊m⌋ : ℚ) < m := by linarith
    have hceil : ⌈m⌉ = ⌊m⌋ + 1 := ceil_eq_floor_add_one_of_lt hlt
    rw [quantizeHE, ceilMul, h, hceil]

/-- One level of the scan: starting from the quantized `lower`, the inner loop
returns the least multiple of the granularity that is `≥ lower` exactly when
that multiple is below `upper`, and otherwise falls through. -/
theorem scanMult_eq (l u : ℚ) (k : ℕ) (hlu : l < u) :
    scanMult ((⌈(u - quantizeHE l k) / (1 / pow10 k)⌉).toNat + 1) l u (1 / pow10 k)
        (quantizeHE l k) =
      if ceilMul l k < u then some (ceilMul l k) else none := by
  have hp := pow10_pos k
  have hj : 0 < 1 / pow10 k := by positivity
  rcases quantizeHE_cases l k with hq | ⟨hq1, hq2⟩
  · rw [hq]
    have hls : l ≤ ceilMul l k := ceilMul_ge l k
    by_cases hcu : ceilMul l k < u
    · simp [scanMult, hcu, hls]
    · simp [scanMult, hcu]
  · have hsu : quantizeHE l k < u := lt_trans hq1 hlu
    have hpos : (0 : ℚ) < (u - quantizeHE l k) / (1 / pow10 k) := by
      apply div_pos (by linarith) hj
    have hone : 1 ≤ (⌈(u - quantizeHE l k) / (1 / pow10 k)⌉).toNat := by
      have : 0 < ⌈(u - quantizeHE l k) / (1 / pow10 k)⌉ := Int.ceil_pos.mpr hpos
      omega
    obtain ⟨n, hn⟩ : ∃ n, (⌈(u - quantizeHE l k) / (1 / pow10 k)⌉).toNat = n + 1 :=
      ⟨(⌈(u - quantizeHE l k) / (1 / pow10 k)⌉).toNat - 1, by omega⟩
    rw [hn]
    have hnl : ¬ l ≤ quantizeHE l k := not_le.mpr hq1
    have hstep : scanMult (n + 1 + 1) l u (1 / pow10 k) (quantizeHE l k) =
        scanMult (n + 1) l u (1 / pow10 k) (quantizeHE l k + 1 / pow10 k) := by
      simp [scanMult, hsu, hnl]
    rw [hstep, hq2]
    have hls : l ≤ ceilMul l k := ceilMul_ge l k
    by_cases hcu : ceilMul l k < u
    · simp [scanMult, hcu, hls]
    · simp [scanMult, hcu]

/-- Unfolding of one level of the granularity search. -/
theorem minimizeAux_level (f k : ℕ) (l u : ℚ) :
    minimizeAux (f + 1) k l u =
      match scanMult ((⌈(u - quantizeHE l k) / (1 / pow10 k)⌉).toNat + 1) l u
          (1 / pow10 k) (quantizeHE l k) with
      | some x => some (x, k)
      | none => minimizeAux f (k + 1) l u := rfl

/-- What a successful run of the granularity search returns: the least
multiple of `10 ^ (-K)` that is `≥ l`, at the first level `K` (from the
starting level on) whose granularity has a multiple inside `[l, u)`. -/
theorem minimizeAux_spec {l u : ℚ} (hlu : l < u) :
    ∀ fuel k x K, minimizeAux fuel k l u = some (x, K) →
      x = ceilMul l K ∧ k ≤ K ∧ ceilMul l K < u ∧
        ∀ j, k ≤ j → j < K → ¬ ceilMul l j < u := by
  intro fuel
  induction fuel with
  | zero => intro k x K h; simp [minimizeAux] at h
  | succ f ih =>
      intro k x K h
      rw [minimizeAux_level, scanMult_eq l u k hlu] at h
      by_cases hP : ceilMul l k < u
      · rw [if_pos hP] at h
        simp only [Option.some.injEq, Prod.mk.injEq] at h
        obtain ⟨hx, hK⟩ := h
        subst hK
        exact ⟨hx.symm ▸ rfl, le_refl k, hP, fun j h1 h2 => absurd (le_trans h1 (Nat.le_of_lt_succ (Nat.lt_succ_of_lt h2))) (by omega)⟩
      · rw [if_neg hP] at h
        obtain ⟨hx, hk1, hPK, hall⟩ := ih (k + 1) x K h
        refine ⟨hx, by omega, hPK, fun j h1 h2 => ?_⟩
        rcases Nat.eq_or_lt_of_le h1 with rfl | h3
        · exact hP
        · exact hall j h3 h2

/-- The granularity search succeeds whenever some level within the fuel has a
multiple of its granularity inside `[l, u)`. -/
theorem minimizeAux_some {l u : ℚ} (hlu : l < u) :
    ∀ fuel k K, k ≤ K → ceilMul l K < u → K < k + fuel →
      (minimizeAux fuel k l u).isSome = true := by
  intro fuel
  induction fuel with
  | zero => intro k K h1 h2 h3; omega
  | succ f ih =>
      intro k K h1 h2 h3
      rw [minimizeAux_level, scanMult_eq l u k hlu]
      by_cases hP : ceilMul l k < u
      · rw [if_pos hP]; rfl
      · rw [if_neg hP]
        have hne : K ≠ k := fun h => hP (h ▸ h2)
        exact ih (k + 1) K (by omega) h2 (by omega)

/-- Where `l` is itself a multiple of `10 ^ (-d)` with `d ≤ K`, the least
multiple `≥ l` at level `K` is `l` itself. -/
theorem ceilMul_eq_self {l : ℚ} {d : ℕ} (hd : (l * pow10 d).den = 1)
    {K : ℕ} (hK : d ≤ K) : ceilMul l K = l := by
  have hp := pow10_pos K
  have hpd := pow10_pos d
  have hsplit : pow10 K = pow10 d * pow10 (K - d) := by
    rw [pow10, pow10, pow10]
    push_cast [← pow_add]
    rw [Nat.add_sub_cancel' hK]
  obtain ⟨z, hz⟩ : ∃ z : ℤ, l * pow10 d = (z : ℚ) :=
    ⟨(l * pow10 d).num, ((Rat.den_eq_one_iff _).mp hd).symm⟩
  obtain ⟨m, hm⟩ : ∃ m : ℤ, (pow10 (K - d) : ℚ) = (m : ℚ) := ⟨(10 : ℤ) ^ (K - d), by
    rw [pow10]; push_cast; ring⟩
  have hlK : l * pow10 K = ((z * m : ℤ) : ℚ) := by
    rw [hsplit, ← mul_assoc, hz, hm]
    push_cast
    ring
  have hne : pow10 K ≠ 0 := ne_of_gt hp
  rw [ceilMul, hlK, Int.ceil_intCast, ← hlK]
  field_simp

/-- If no multiple of `10 ^ (-j)` lies in `[l, u)`, then no value of `[l, u)`
has a `j`-digit decimal expansion. -/
theorem no_multiple_of_notP {l u : ℚ} {j : ℕ} (hj : ¬ ceilMul l j < u)
    {y : ℚ} (hy1 : l ≤ y) (hy2 : y < u) (hden : (y * pow10 j).den = 1) : False := by
  have hp := pow10_pos j
  obtain ⟨z, hz⟩ : ∃ z : ℤ, y * pow10 j = (z : ℚ) :=
    ⟨(y * pow10 j).num, ((Rat.den_eq_one_iff _).mp hden).symm⟩
  have h1 : l * pow10 j ≤ (z : ℚ) := by
    rw [← hz]
    exact mul_le_mul_of_nonneg_right hy1 (le_of_lt hp)
  have h2 : ⌈l * pow10 j⌉ ≤ z := Int.ceil_le.mpr h1
  have h3 : ceilMul l j ≤ y := by
    rw [ceilMul, div_le_iff hp, hz]
    exact_mod_cast h2
  exact hj (lt_of_le_of_lt h3 hy2)

/-! ## Lemmas about digit strings -/

theorem decDigits_length (c k : ℕ) : (decDigits c k).length = k := by
  induction k with
  | zero => rfl
  | succ k ih => simp [decDigits, ih]

theorem decDigits_foldl (c : ℕ) :
    ∀ k a, (decDigits c k).foldl (fun a d => 10 * a + d) a = a * 10 ^ k + c % 10 ^ k := by
  intro k
  induction k with
  | zero => intro a; simp [decDigits, Nat.mod_one]
  | succ k ih =>
      intro a
      rw [decDigits, List.foldl_cons, ih]
      have hsplit : c % 10 ^ (k + 1) = c % 10 ^ k + 10 ^ k * (c / 10 ^ k % 10) := by
        rw [pow_succ, Nat.mod_mul]
      rw [hsplit]
      ring

theorem numDigitsAux_pos (f c : ℕ) : 1 ≤ numDigitsAux f c := by
  cases f with
  | zero => exact le_refl 1
  | succ f =>
      rw [numDigitsAux]
      split
      · exact le_refl 1
      · omega

theorem numDigits_pos (c : ℕ) : 1 ≤ numDigits c := numDigitsAux_pos c c

theorem numDigitsAux_le :
    ∀ f c k, 1 ≤ k → c ≤ f → c < 10 ^ k → numDigitsAux f c ≤ k := by
  intro f
  induction f with
  | zero => intro c k hk _ _; exact hk
  | succ f ih =>
      intro c k hk hcf hck
      rw [numDigitsAux]
      split
      · exact hk
      · rename_i h10
        push_neg at h10
        have hk2 : 2 ≤ k := by
          rcases Nat.lt_or_ge k 2 with h | h
          · exfalso
            have hk1 : k = 1 := by omega
            rw [hk1, pow_one] at hck
            omega
          · exact h
        have h1 : c / 10 ≤ f := by omega
        have h2 : c / 10 < 10 ^ (k - 1) := by
          rw [Nat.div_lt_iff_lt_mul (by norm_num : 0 < 10)]
          calc c < 10 ^ k := hck
          _ = 10 ^ (k - 1) * 10 := by
                rw [← pow_succ]
                congr 1
                omega
        have h3 := ih (c / 10) (k - 1) (by omega) h1 h2
        omega

theorem numDigits_le {c k : ℕ} (hk : 1 ≤ k) (hc : c < 10 ^ k) :
    numDigits c ≤ k :=
  numDigitsAux_le c c k hk (le_refl c) hc

theorem numDigitsAux_ge :
    ∀ f c j, c ≤ f → 10 ^ j ≤ c → j + 1 ≤ numDigitsAux f c := by
  intro f
  induction f with
  | zero =>
      intro c j hcf hjc
      have hpow : 0 < 10 ^ j := Nat.pos_pow_of_pos j (by norm_num)
      omega
  | succ f ih =>
      intro c j hcf hjc
      rw [numDigitsAux]
      split
      · rename_i h10
        have hj0 : j = 0 := by
          by_contra h
          have h1 : 1 ≤ j := by omega
          have h2 : (10 : ℕ) ≤ 10 ^ j := by
            calc (10 : ℕ) = 10 ^ 1 := (pow_one 10).symm
            _ ≤ 10 ^ j := Nat.pow_le_pow_right (by norm_num) h1
          omega
        omega
      · rename_i h10
        push_neg at h10
        cases j with
        | zero =>
            have := numDigitsAux_pos f (c / 10)
            omega
        | succ j2 =>
            have h1 : c / 10 ≤ f := by omega
            have h2 : 10 ^ j2 ≤ c / 10 := by
              rw [Nat.le_div_iff_mul_le (by norm_num : 0 < 10)]
              calc 10 ^ j2 * 10 = 10 ^ (j2 + 1) := by rw [pow_succ]
              _ ≤ c := hjc
            have h3 := ih (c / 10) j2 h1 h2
            omega

theorem numDigits_ge {c j : ℕ} (hc : 10 ^ j ≤ c) : j + 1 ≤ numDigits c :=
  numDigitsAux_ge c c j (le_refl c) hc

/-- In the plain-notation regime below one (`numDigits c ≤ k`, adjusted
exponent at least `-6`), `str` is `"0."` followed by the `k` padded
digits. -/
theorem strDecimal_plain {c k : ℕ} (h1 : numDigits c ≤ k)
    (h2 : k ≤ numDigits c + 5) :
    strDecimal c k =
      DecChar.digit 0 :: DecChar.dot :: (decDigits c k).map DecChar.digit := by
  rw [strDecimal, if_pos h2, if_pos h1]

theorem splitExp_map_digit (ds : List ℕ) :
    splitExp (ds.map DecChar.digit) = (ds.map DecChar.digit, none) := by
  induction ds with
  | nil => rfl
  | cons d rest ih => simp [splitExp, ih]

theorem takeDigits_map_digit (ds : List ℕ) :
    takeDigits (ds.map DecChar.digit) = some ds := by
  induction ds with
  | nil => rfl
  | cons d rest ih => simp [takeDigits, ih]

/-- Parsing a pure digit field recovers `0.<digits>`. -/
theorem parse_digits (ds : List ℕ) :
    parsePyDecimalFrac (ds.map DecChar.digit) =
      some ((digitsVal ds : ℚ) / pow10 ds.length) := by
  rw [parsePyDecimalFrac, splitExp_map_digit]
  show (match takeDigits (ds.map DecChar.digit) with
    | some digits => some ((digitsVal digits : ℚ) / pow10 digits.length)
    | none => none) = some ((digitsVal ds : ℚ) / pow10 ds.length)
  rw [takeDigits_map_digit]

/-- What `decode` reads back from the artifact's field (the parse step of
`Decimal("0." + field)`) is the selected value again, provided the selector
value was printed in plain notation: `0 ≤ x < 1`, integral at exponent `-k`,
and adjusted exponent at least `-6`. -/
theorem parse_fracToDecimalField {x : ℚ} {k : ℕ} (h0 : 0 ≤ x) (h1 : x < 1)
    (hk : 1 ≤ k) (hden : (x * pow10 k).den = 1)
    (hplain : k ≤ numDigits (x * pow10 k).num.toNat + 5) :
    parsePyDecimalFrac (fracToDecimalField x k) = some x := by
  have hp := pow10_pos k
  obtain ⟨z, hz⟩ : ∃ z : ℤ, x * pow10 k = (z : ℚ) :=
    ⟨(x * pow10 k).num, ((Rat.den_eq_one_iff _).mp hden).symm⟩
  have hz0 : 0 ≤ z := by
    have : (0 : ℚ) ≤ (z : ℚ) := hz ▸ mul_nonneg h0 (le_of_lt hp)
    exact_mod_cast this
  have hzlt : z < ((10 ^ k : ℕ) : ℤ) := by
    have h2 : x * pow10 k < pow10 k := by
      calc x * pow10 k < 1 * pow10 k := by
            exact mul_lt_mul_of_pos_right h1 hp
        _ = pow10 k := one_mul _
    have h3 : (z : ℚ) < ((10 ^ k : ℕ) : ℚ) := by rw [← hz, ← pow10]; exact h2
    exact_mod_cast h3
  have hnum : (x * pow10 k).num = z := by rw [hz]; exact Rat.num_intCast z
  have hcn : z.toNat < 10 ^ k := by omega
  have hnd : numDigits z.toNat ≤ k := numDigits_le hk hcn
  rw [fracToDecimalField, hnum, strDecimal_plain hnd (hnum ▸ hplain),
    List.drop_succ_cons, List.drop_succ_cons, List.drop_zero, parse_digits]
  rw [digitsVal, decDigits_foldl, decDigits_length, Nat.mod_eq_of_lt hcn]
  have hcast : ((z.toNat : ℕ) : ℚ) = (z : ℚ) := by
    have := Int.toNat_of_nonneg hz0
    exact_mod_cast congrArg (Int.cast : ℤ → ℚ) this
  rw [show (0 * 10 ^ k + z.toNat : ℕ) = z.toNat by ring, hcast, ← hz]
  congr 1
  field_simp

/-! ## Lemmas about the decode binary search -/

theorem bisectAux_spec (a : List ℚ) (x : ℚ)
    (hmono : ∀ i j, i ≤ j → j < a.length → a.getD i 0 ≤ a.getD j 0) :
    ∀ fuel lo hi, hi - lo ≤ fuel → lo ≤ hi → hi ≤ a.length →
      (∀ i, i < lo → a.getD i 0 ≤ x) →
      (∀ i, hi ≤ i → i < a.length → x < a.getD i 0) →
      lo ≤ bisectAux a x fuel lo hi ∧ bisectAux a x fuel lo hi ≤ hi ∧
        (∀ i, i < bisectAux a x fuel lo hi → a.getD i 0 ≤ x) ∧
        (∀ i, bisectAux a x fuel lo hi ≤ i → i < a.length → x < a.getD i 0) := by
  intro fuel
  induction fuel with
  | zero =>
      intro lo hi hf h1 h2 hlow hhigh
      have : lo = hi := by omega
      subst this
      simp only [bisectAux]
      exact ⟨le_refl _, le_refl _, hlow, hhigh⟩
  | succ f ih =>
      intro lo hi hf h1 h2 hlow hhigh
      rw [bisectAux]
      by_cases hlh : lo < hi
      · rw [if_pos hlh]
        have hmid1 : lo ≤ (lo + hi) / 2 := by omega
        have hmid2 : (lo + hi) / 2 < hi := by omega
        by_cases hcmp : x < a.getD ((lo + hi) / 2) 0
        · rw [if_pos hcmp]
          have hrec := ih lo ((lo + hi) / 2) (by omega) hmid1 (by omega) hlow
            (fun i hi1 hi2 => lt_of_lt_of_le hcmp (hmono _ i hi1 hi2))
          obtain ⟨ha, hb, hc, hd⟩ := hrec
          exact ⟨ha, by omega, hc, hd⟩
        · rw [if_neg hcmp]
          have hmidlen : (lo + hi) / 2 < a.length := by omega
          have hle : a.getD ((lo + hi) / 2) 0 ≤ x := not_lt.mp hcmp
          have hrec := ih ((lo + hi) / 2 + 1) hi (by omega) (by omega) h2
            (fun i hi1 => le_trans (hmono i ((lo + hi) / 2) (by omega) hmidlen) hle)
            hhigh
          obtain ⟨ha, hb, hc, hd⟩ := hrec
          exact ⟨by omega, hb, hc, hd⟩
      · rw [if_neg hlh]
        have : lo = hi := by omega
        subst this
        exact ⟨le_refl _, le_refl _, hlow, hhigh⟩

/-- The specification of `bisect_right` on a monotone list: every entry before
the returned index is `≤ x`, every entry from it on is `> x`. -/
theorem bisectRight_spec (a : List ℚ) (x : ℚ)
    (hmono : ∀ i j, i ≤ j → j < a.length → a.getD i 0 ≤ a.getD j 0) :
    bisectRight a x ≤ a.length ∧
      (∀ i, i < bisectRight a x → a.getD i 0 ≤ x) ∧
      (∀ i, bisectRight a x ≤ i → i < a.length → x < a.getD i 0) := by
  have h := bisectAux_spec a x hmono a.length 0 a.length (by omega) (by omega)
    (le_refl _) (fun i hi => by omega) (fun i hi1 hi2 => by omega)
  exact ⟨h.2.1, h.2.2.1, h.2.2.2⟩

/-! ## Lemmas about the decode CDF list -/

/-- Sum of the probabilities of the first `i` table entries: the value of the
`i`-th entry of `decode`'s `range_lower` list. -/
def prefixSum (pt : List (α × ℚ)) (i : ℕ) : ℚ := ((pt.take i).map Prod.snd).sum

theorem prefixSum_zero (pt : List (α × ℚ)) : prefixSum pt 0 = 0 := rfl

theorem prefixSum_cons (k : α) (p : ℚ) (tl : List (α × ℚ)) (i : ℕ) :
    prefixSum ((k, p) :: tl) (i + 1) = p + prefixSum tl i := by
  simp [prefixSum, List.take_succ_cons]

theorem prefixSum_succ (pt : List (α × ℚ)) (i : ℕ) (hi : i < pt.length) :
    prefixSum pt (i + 1) = prefixSum pt i + (pt.get ⟨i, hi⟩).2 := by
  induction pt generalizing i with
  | nil => simp at hi
  | cons hd tl ih =>
      obtain ⟨k, p⟩ := hd
      cases i with
      | zero => simp [prefixSum_cons, prefixSum_zero, prefixSum, List.take_succ_cons]
      | succ i =>
          rw [prefixSum_cons, prefixSum_cons, ih i (by simpa using Nat.lt_of_succ_lt_succ hi)]
          simp [List.get]
          ring

theorem prefixSum_mono (pt : List (α × ℚ)) (hpos : ∀ a p, (a, p) ∈ pt → 0 < p) :
    ∀ i j, i ≤ j → prefixSum pt i ≤ prefixSum pt j := by
  intro i j hij
  induction j with
  | zero => simp_all
  | succ j ih =>
      rcases Nat.lt_or_ge j pt.length with hj | hj
      · rcases Nat.eq_or_lt_of_le hij with rfl | hlt
        · exact le_refl _
        · have h1 := ih (Nat.le_of_lt_succ hlt)
          have h2 : 0 < (pt.get ⟨j, hj⟩).2 := by
            apply hpos (pt.get ⟨j, hj⟩).1
            have := List.get_mem pt j hj
            simpa using this
          rw [prefixSum_succ pt j hj]
          linarith
      · have htake : pt.take (j + 1) = pt.take j := by
          rw [List.take_of_length_le hj, List.take_of_length_le (by omega)]
        rcases Nat.eq_or_lt_of_le hij with rfl | hlt
        · exact le_refl _
        · have h1 := ih (Nat.le_of_lt_succ hlt)
          simpa [prefixSum, htake] using h1

theorem rangeLowerList_length (pt : List (α × ℚ)) :
    ∀ prev, (rangeLowerList prev pt).length = pt.length := by
  induction pt with
  | nil => intro prev; rfl
  | cons hd tl ih =>
      obtain ⟨k, p⟩ := hd
      intro prev
      simp [rangeLowerList, ih]

theorem rangeLowerList_get? (pt : List (α × ℚ)) :
    ∀ prev i, i < pt.length →
      (rangeLowerList prev pt).get? i = some (prev + prefixSum pt i) := by
  induction pt with
  | nil => intro prev i hi; simp at hi
  | cons hd tl ih =>
      obtain ⟨k, p⟩ := hd
      intro prev i hi
      cases i with
      | zero => simp [rangeLowerList, prefixSum_zero]
      | succ i =>
          rw [rangeLowerList]
          have := ih (prev + p) i (by simpa using Nat.lt_of_succ_lt_succ hi)
          simp only [List.get?_cons_succ, this, prefixSum_cons, Option.some.injEq]
          ring

theorem rangeLowerList_getD (pt : List (α × ℚ)) (prev : ℚ) (i : ℕ)
    (hi : i < pt.length) :
    (rangeLowerList prev pt).getD i 0 = prev + prefixSum pt i := by
  rw [List.getD_eq_getElem?_getD, ← List.get?_eq_getElem?, rangeLowerList_get? pt prev i hi]
  rfl

theorem cdfBefore_eq_prefixSum (pt : List (α × ℚ)) (hnd : (keysOf pt).Nodup) :
    ∀ i (hi : i < pt.length), cdfBefore pt (pt.get ⟨i, hi⟩).1 = prefixSum pt i := by
  induction pt with
  | nil => intro i hi; simp at hi
  | cons hd tl ih =>
      obtain ⟨k, p⟩ := hd
      intro i hi
      cases i with
      | zero => simp [cdfBefore, prefixSum_zero, List.get]
      | succ i =>
          have hi' : i < tl.length := by simpa using Nat.lt_of_succ_lt_succ hi
          have hs : (((k, p) :: tl).get ⟨i + 1, hi⟩).1 = (tl.get ⟨i, hi'⟩).1 := rfl
          have hmem : (tl.get ⟨i, hi'⟩).1 ∈ keysOf tl := by
            rw [keysOf]
            exact List.mem_map_of_mem Prod.fst (by simpa using List.get_mem tl i hi')
          have hnd' : (k :: keysOf tl).Nodup := by simpa [keysOf] using hnd
          have hk : k ≠ (tl.get ⟨i, hi'⟩).1 :=
            fun h => (List.nodup_cons.mp hnd').1 (h ▸ hmem)
          rw [hs, cdfBefore, if_neg hk, prefixSum_cons,
            ih (by simpa [keysOf] using (List.nodup_cons.mp hnd').2) i hi']

theorem lookupQ_eq_probOf {pt : List (α × ℚ)} {s : α} (h : s ∈ keysOf pt) :
    lookupQ pt s = some (probOf pt s) := by
  rcases ho : lookupQ pt s with _ | v
  · exact absurd (lookupQ_eq_none.mp ho) (by simpa using h)
  · rw [probOf, ho]
    rfl

theorem probOf_get (pt : List (α × ℚ)) (hnd : (keysOf pt).Nodup) :
    ∀ i (hi : i < pt.length), probOf pt (pt.get ⟨i, hi⟩).1 = (pt.get ⟨i, hi⟩).2 := by
  induction pt with
  | nil => intro i hi; simp at hi
  | cons hd tl ih =>
      obtain ⟨k, p⟩ := hd
      intro i hi
      cases i with
      | zero => simp [probOf, lookupQ, List.get]
      | succ i =>
          have hi' : i < tl.length := by simpa using Nat.lt_of_succ_lt_succ hi
          have hs : (((k, p) :: tl).get ⟨i + 1, hi⟩) = (tl.get ⟨i, hi'⟩) := rfl
          have hmem : (tl.get ⟨i, hi'⟩).1 ∈ keysOf tl := by
            rw [keysOf]
            exact List.mem_map_of_mem Prod.fst (by simpa using List.get_mem tl i hi')
          have hnd' : (k :: keysOf tl).Nodup := by simpa [keysOf] using hnd
          have hk : k ≠ (tl.get ⟨i, hi'⟩).1 :=
            fun h => (List.nodup_cons.mp hnd').1 (h ▸ hmem)
          rw [hs, probOf, lookupQ, if_neg hk, ← probOf,
            ih (by simpa [keysOf] using (List.nodup_cons.mp hnd').2) i hi']

/-- The binary search of the decode loop returns one past the greatest index
whose cumulative lower bound is `≤` the fraction. -/
theorem bisectRight_greatest (pt : List (α × ℚ))
    (hpos : ∀ a p, (a, p) ∈ pt → 0 < p) (f : ℚ) (i : ℕ) (hi : i < pt.length)
    (hf1 : prefixSum pt i ≤ f)
    (hf2 : i + 1 < pt.length → f < prefixSum pt (i + 1)) :
    bisectRight (rangeLowerList 0 pt) f = i + 1 := by
  set a := rangeLowerList 0 pt with ha
  have hlen : a.length = pt.length := rangeLowerList_length pt 0
  have hgetD : ∀ j, j < pt.length → a.getD j 0 = prefixSum pt j := by
    intro j hj
    rw [ha, rangeLowerList_getD pt 0 j hj, zero_add]
  have hmono : ∀ j1 j2, j1 ≤ j2 → j2 < a.length → a.getD j1 0 ≤ a.getD j2 0 := by
    intro j1 j2 h12 h2
    rw [hgetD j1 (by omega), hgetD j2 (by omega)]
    exact prefixSum_mono pt hpos j1 j2 h12
  obtain ⟨hle, hlow, hhigh⟩ := bisectRight_spec a f hmono
  set r := bisectRight a f with hr
  have h1 : i < r := by
    by_contra h
    have h2 := hhigh i (by omega) (by omega)
    rw [hgetD i hi] at h2
    linarith
  have h2 : r ≤ i + 1 := by
    by_contra h
    have h3 : i + 1 < r := by omega
    have h4 : i + 1 < a.length := by omega
    have h5 := hlow (i + 1) h3
    rw [hgetD (i + 1) (by omega)] at h5
    have h6 := hf2 (by omega)
    linarith
  omega

/-- The binary search of the decode loop picks exactly the index whose
cumulative sub-interval contains the fraction. -/
theorem bisectRight_rangeLower (pt : List (α × ℚ))
    (hpos : ∀ a p, (a, p) ∈ pt → 0 < p) (f : ℚ) (i : ℕ) (hi : i < pt.length)
    (hf1 : prefixSum pt i ≤ f) (hf2 : f < prefixSum pt i + (pt.get ⟨i, hi⟩).2) :
    bisectRight (rangeLowerList 0 pt) f = i + 1 := by
  refine bisectRight_greatest pt hpos f i hi hf1 (fun h => ?_)
  rw [prefixSum_succ pt i hi]
  exact hf2

/-! ## Lemmas about the decode loop -/

theorem pyGet_natCast (l : List β) (i : ℕ) : pyGet l (i : ℤ) = l.get? i := by
  rw [pyGet, if_pos (by exact_mod_cast Int.ofNat_nonneg i)]
  simp

theorem pyGet_mem {l : List β} {i : ℤ} {a : β} (h : pyGet l i = some a) : a ∈ l := by
  rw [pyGet] at h
  split at h
  · exact List.get?_mem h
  · split at h
    · exact List.get?_mem h
    · exact absurd h (by simp)

theorem encLow_nonneg (pt : List (α × ℚ)) (hpos : ∀ a p, (a, p) ∈ pt → 0 < p) :
    ∀ S : List α, (∀ s ∈ S, s ∈ keysOf pt) → 0 ≤ encLow pt S := by
  intro S
  induction S with
  | nil => intro h; simp [encLow]
  | cons s rest ih =>
      intro h
      have hs : s ∈ keysOf pt := h s (by simp)
      have h1 := cdfBefore_nonneg hpos s
      have h2 := probOf_pos hpos hs
      have h3 := ih (fun a ha => h a (List.mem_cons_of_mem _ ha))
      rw [encLow]
      positivity

theorem encW_pos (pt : List (α × ℚ)) (hpos : ∀ a p, (a, p) ∈ pt → 0 < p) :
    ∀ S : List α, (∀ s ∈ S, s ∈ keysOf pt) → 0 < encW pt S := by
  intro S
  induction S with
  | nil => intro h; simp [encW]
  | cons s rest ih =>
      intro h
      have h2 := probOf_pos hpos (h s (by simp))
      have h3 := ih (fun a ha => h a (List.mem_cons_of_mem _ ha))
      rw [encW]
      positivity

/-- The narrowed interval stays inside `[0, 1)` as long as the probabilities
sum to at most `1`. -/
theorem encLow_add_encW_le_one (pt : List (α × ℚ))
    (hpos : ∀ a p, (a, p) ∈ pt → 0 < p) (hsum : sumProbs pt ≤ 1) :
    ∀ S : List α, (∀ s ∈ S, s ∈ keysOf pt) → encLow pt S + encW pt S ≤ 1 := by
  intro S
  induction S with
  | nil => intro h; simp [encLow, encW]
  | cons s rest ih =>
      intro h
      have hs : s ∈ keysOf pt := h s (by simp)
      have h1 := cdf_add_prob_le_sum hpos hs
      have h2 := probOf_pos hpos hs
      have h3 := ih (fun a ha => h a (List.mem_cons_of_mem _ ha))
      rw [encLow, encW]
      have h4 : probOf pt s * encLow pt rest + probOf pt s * encW pt rest ≤ probOf pt s := by
        have := mul_le_mul_of_nonneg_left h3 (le_of_lt h2)
        linarith [this]
      linarith

/-- One unfolded iteration of the decode loop, where the binary search already
landed on index `i` with symbol `s`, cumulative lower `c` and probability
`p`. -/
theorem decodeLoop_step (range_lower : List ℚ) (range_symbol : List α)
    (pt : List (α × ℚ)) (eof : α) (fuel : ℕ) (x : ℚ) (out : List α) (i : ℕ)
    (hbis : bisectRight range_lower x = i + 1) (s : α)
    (hs : range_symbol.get? i = some s) (c p : ℚ)
    (hc : range_lower.get? i = some c) (hp : lookupQ pt s = some p)
    (hp0 : p ≠ 0) :
    decodeLoop range_lower range_symbol pt eof (fuel + 1) x out =
      if s = eof then some (out ++ [s])
      else decodeLoop range_lower range_symbol pt eof fuel ((x - c) / p)
        (out ++ [s]) := by
  have hv : ((bisectRight range_lower x : ℤ) - 1) = (i : ℤ) := by
    rw [hbis]; push_cast; ring
  rw [decodeLoop, hv, pyGet_natCast, pyGet_natCast, hs, hc]
  simp [hp, hp0]

/-- The decode loop reproduces the symbol sequence whose narrowed interval
contains the fraction, provided the end-of-sequence marker appears exactly at
the end of that sequence. -/
theorem decodeLoop_roundtrip (pt : List (α × ℚ)) (eof : α)
    (hpos : ∀ a p, (a, p) ∈ pt → 0 < p) (hnd : (keysOf pt).Nodup)
    (hsum : sumProbs pt ≤ 1) :
    ∀ S : List α, S.getLast? = some eof → eof ∉ S.dropLast →
      (∀ s ∈ S, s ∈ keysOf pt) →
      ∀ x out fuel, S.length ≤ fuel →
        encLow pt S ≤ x → x < encLow pt S + encW pt S →
        decodeLoop (rangeLowerList 0 pt) (keysOf pt) pt eof fuel x out =
          some (out ++ S) := by
  intro S
  induction S with
  | nil => intro hlast; simp at hlast
  | cons s rest ih =>
      intro hlast hmid hkeys x out fuel hfuel hx1 hx2
      obtain ⟨f, rfl⟩ : ∃ f, fuel = f + 1 := by
        cases fuel with
        | zero => simp at hfuel
        | succ f => exact ⟨f, rfl⟩
      have hsmem : s ∈ keysOf pt := hkeys s (by simp)
      have hsmem' : s ∈ pt.map Prod.fst := by rw [← keysOf]; exact hsmem
      obtain ⟨pair, hpair, hfst⟩ := List.mem_map.mp hsmem'
      obtain ⟨⟨i, hi⟩, hget⟩ := List.mem_iff_get.mp hpair
      have hgets : (pt.get ⟨i, hi⟩).1 = s := by rw [hget, hfst]
      have hcdf : cdfBefore pt s = prefixSum pt i := by
        rw [← hgets]; exact cdfBefore_eq_prefixSum pt hnd i hi
      have hprob : probOf pt s = (pt.get ⟨i, hi⟩).2 := by
        rw [← hgets]; exact probOf_get pt hnd i hi
      have hp : 0 < probOf pt s := probOf_pos hpos hsmem
      have hrestkeys : ∀ a ∈ rest, a ∈ keysOf pt :=
        fun a ha => hkeys a (List.mem_cons_of_mem _ ha)
      have hE0 : 0 ≤ encLow pt rest := encLow_nonneg pt hpos rest hrestkeys
      have hW0 : 0 < encW pt rest := encW_pos pt hpos rest hrestkeys
      have hle1 : encLow pt rest + encW pt rest ≤ 1 :=
        encLow_add_encW_le_one pt hpos hsum rest hrestkeys
      rw [encLow] at hx1 hx2
      rw [encW] at hx2
      have hf1 : prefixSum pt i ≤ x := by
        rw [← hcdf]
        nlinarith
      have hf2 : x < prefixSum pt i + (pt.get ⟨i, hi⟩).2 := by
        rw [← hcdf, ← hprob]
        nlinarith
      have hbis := bisectRight_rangeLower pt hpos x i hi hf1 hf2
      have hsym : (keysOf pt).get? i = some s := by
        rw [keysOf, List.get?_map, List.get?_eq_get hi, Option.map_some', hgets]
      have hcl : (rangeLowerList 0 pt).get? i = some (0 + prefixSum pt i) :=
        rangeLowerList_get? pt 0 i hi
      have hlq : lookupQ pt s = some (probOf pt s) := lookupQ_eq_probOf hsmem
      rw [decodeLoop_step (rangeLowerList 0 pt) (keysOf pt) pt eof f x out i hbis s
        hsym (0 + prefixSum pt i) (probOf pt s) hcl hlq (ne_of_gt hp)]
      by_cases heof : s = eof
      · rw [if_pos heof]
        have hrest : rest = [] := by
          cases rest with
          | nil => rfl
          | cons b t =>
              exfalso
              apply hmid
              rw [heof] at *
              simp [List.dropLast]
        rw [hrest]
      · rw [if_neg heof]
        have hrest : rest ≠ [] := by
          intro h
          rw [h] at hlast
          simp at hlast
          exact heof hlast
        obtain ⟨b, t, rfl⟩ : ∃ b t, rest = b :: t := by
          cases rest with
          | nil => exact absurd rfl hrest
          | cons b t => exact ⟨b, t, rfl⟩
        have hlast' : (b :: t).getLast? = some eof := by
          simpa [List.getLast?_cons_cons] using hlast
        have hmid' : eof ∉ (b :: t).dropLast := by
          intro h
          exact hmid (by simp [List.dropLast_cons₂, h])
        have hx1' : encLow pt (b :: t) ≤ (x - (0 + prefixSum pt i)) / probOf pt s := by
          rw [le_div_iff hp, ← hcdf]
          nlinarith
        have hx2' : (x - (0 + prefixSum pt i)) / probOf pt s <
            encLow pt (b :: t) + encW pt (b :: t) := by
          rw [div_lt_iff hp, ← hcdf]
          nlinarith
        rw [ih hlast' hmid' (fun a ha => hkeys a (List.mem_cons_of_mem _ ha))
          ((x - (0 + prefixSum pt i)) / probOf pt s) (out ++ [s]) f
          (by simpa using Nat.le_of_succ_le_succ hfuel) hx1' hx2']
        simp

/-- Any successful run of the decode loop appends a non-empty block of
emitted symbols ending in the marker, all drawn from `range_symbol`. -/
theorem decodeLoop_shape (range_lower : List ℚ) (range_symbol : List α)
    (pt : List (α × ℚ)) (eof : α) :
    ∀ fuel x out res,
      decodeLoop range_lower range_symbol pt eof fuel x out = some res →
      ∃ tail, res = out ++ tail ∧ tail ≠ [] ∧ tail.getLast? = some eof ∧
        ∀ a ∈ tail, a ∈ range_symbol := by
  intro fuel
  induction fuel with
  | zero => intro x out res h; simp [decodeLoop] at h
  | succ f ih =>
      intro x out res h
      rw [decodeLoop] at h
      rcases hsym : pyGet range_symbol ((bisectRight range_lower x : ℤ) - 1)
        with _ | symbol
      · rw [hsym] at h; simp at h
      · rw [hsym] at h
        replace h : (match pyGet range_lower ((bisectRight range_lower x : ℤ) - 1),
            lookupQ pt symbol with
          | some rl, some p =>
              if p = 0 then none
              else if symbol = eof then some (out ++ [symbol])
              else decodeLoop range_lower range_symbol pt eof f ((x - rl) / p)
                (out ++ [symbol])
          | some _, none => none
          | none, _ => none) = some res := h
        rcases hlow : pyGet range_lower ((bisectRight range_lower x : ℤ) - 1)
          with _ | rl
        · rw [hlow] at h; simp at h
        · rw [hlow] at h
          rcases hlq : lookupQ pt symbol with _ | p
          · rw [hlq] at h; simp at h
          · rw [hlq] at h
            replace h : (if p = 0 then none
                else if symbol = eof then some (out ++ [symbol])
                else decodeLoop range_lower range_symbol pt eof f ((x - rl) / p)
                  (out ++ [symbol])) = some res := h
            by_cases hp0 : p = 0
            · rw [if_pos hp0] at h; exact absurd h (by simp)
            · rw [if_neg hp0] at h
              have hmem : symbol ∈ range_symbol := pyGet_mem hsym
              by_cases heof : symbol = eof
              · rw [if_pos heof] at h
                refine ⟨[symbol], ?_, by simp, by simp [heof], by simpa using hmem⟩
                simpa using h.symm
              · rw [if_neg heof] at h
                obtain ⟨tail, htail, hne, hlast, hsub⟩ := ih _ _ _ h
                refine ⟨symbol :: tail, ?_, by simp, ?_, ?_⟩
                · rw [htail]; simp
                · cases tail with
                  | nil => exact absurd rfl hne
                  | cons b t => simpa [List.getLast?_cons_cons] using hlast
                · intro a ha
                  rcases List.mem_cons.mp ha with rfl | ha2
                  · exact hmem
                  · exact hsub a ha2

/-! ## Encode-level lemmas -/

theorem pyAbs_eq_abs (q : ℚ) : pyAbs q = |q| := by
  rw [pyAbs]
  rcases lt_or_le q 0 with h | h
  · rw [if_pos h, abs_of_neg h]
  · rw [if_neg (not_lt.mpr h), abs_of_nonneg h]

/-- Starting from the initial range table, the narrowing loop lands on the
interval described by `encLow` and `encW`. -/
theorem narrowLoop_init {pt : List (α × ℚ)} {S : List α} (hne : S ≠ [])
    (hkeys : ∀ s ∈ S, s ∈ keysOf pt) :
    narrowLoop pt S (initRangeTable pt) none =
      .ok (encLow pt S, encLow pt S + sumProbs pt * encW pt S) := by
  rw [initRangeTable, initRanges_eq_scaledRanges, narrowLoop_ok hne hkeys 0 1 none]
  simp only [Except.ok.injEq, Prod.mk.injEq]
  refine ⟨by ring, by ring⟩

/-- The narrowing loop raises `KeyError` whenever some symbol of the sequence
is absent from the table's keys. -/
theorem narrowLoop_keyError {pt : List (α × ℚ)} :
    ∀ S : List α, (∃ s ∈ S, s ∉ keysOf pt) → ∀ L W acc,
      narrowLoop pt S (scaledRanges L W pt) acc = .error .keyError := by
  intro S
  induction S with
  | nil => rintro ⟨s, hs, _⟩L W acc; simp at hs
  | cons s rest ih =>
      rintro ⟨a, ha, hnot⟩ L W acc
      by_cases hs : s ∈ keysOf pt
      · have harest : a ∈ rest := by
          rcases List.mem_cons.mp ha with rfl | h2
          · exact absurd hs hnot
          · exact h2
        rw [narrowLoop, updateRangeTable_eq hs]
        exact ih ⟨a, harest, hnot⟩ _ _ _
      · have hlook : lookupQ (scaledRanges L W pt) s = none := by
          rw [lookupQ_eq_none, keysOf_scaledRanges]
          exact hs
        rw [narrowLoop, updateRangeTable, hlook]

/-- The narrowing loop never raises the (unreachable) `NameError` modelled by
`assertFailed` once the symbol list is non-empty. -/
theorem narrowLoop_no_assert {pt : List (α × ℚ)} :
    ∀ (S : List α) rt acc, S ≠ [] →
      narrowLoop pt S rt acc ≠ .error PyErr.assertFailed := by
  intro S
  induction S with
  | nil => intro rt acc h; exact absurd rfl h
  | cons s rest ih =>
      intro rt acc h
      rcases hup : updateRangeTable rt pt s with _ | r
      · rw [narrowLoop, hup]
        simp
      · obtain ⟨rt2, lower, upper⟩ := r
        rw [narrowLoop, hup]
        show narrowLoop pt rest rt2 (some (lower, upper)) ≠ .error .assertFailed
        cases rest with
        | nil =>
            rw [narrowLoop]
            simp
        | cons b t => exact ih rt2 (some (lower, upper)) (by simp)

/-! ## Partition lemmas (cumulative range tables) -/

/-- `chainFrom a rs b`: the ranges of `rs` are contiguous — the first starts
at `a`, each subsequent lower bound equals the previous upper bound, and the
last upper bound is `b`. -/
def chainFrom : ℚ → List (α × ℚ × ℚ) → ℚ → Prop
  | a, [], b => a = b
  | a, (_, lo, hi) :: rest, b => lo = a ∧ chainFrom hi rest b

theorem chainFrom_scaledRanges (pt : List (α × ℚ)) :
    ∀ prev w, chainFrom prev (scaledRanges prev w pt) (scaledFinal prev w pt) := by
  induction pt with
  | nil => intro prev w; rfl
  | cons hd tl ih =>
      obtain ⟨k, p⟩ := hd
      intro prev w
      exact ⟨rfl, ih (prev + p * w) w⟩

theorem mem_scaledRanges (pt : List (α × ℚ)) :
    ∀ prev w e, e ∈ scaledRanges prev w pt →
      ∃ p, (e.1, p) ∈ pt ∧ e.2.2 = e.2.1 + p * w := by
  induction pt with
  | nil => intro prev w e h; simp [scaledRanges] at h
  | cons hd tl ih =>
      obtain ⟨k, p⟩ := hd
      intro prev w e h
      rcases List.mem_cons.mp h with rfl | h2
      · exact ⟨p, by simp, by simp⟩
      · obtain ⟨p2, hmem, hwid⟩ := ih (prev + p * w) w e h2
        exact ⟨p2, List.mem_cons_of_mem _ hmem, hwid⟩

theorem chainFrom_le {rs : List (α × ℚ × ℚ)}
    (hw : ∀ e ∈ rs, e.2.1 ≤ e.2.2) :
    ∀ a b, chainFrom a rs b → a ≤ b := by
  induction rs with
  | nil => intro a b h; exact le_of_eq h
  | cons e rest ih =>
      obtain ⟨s, lo, hi⟩ := e
      rintro a b ⟨h1, h2⟩
      have h3 : lo ≤ hi := hw (s, lo, hi) (by simp)
      have h4 := ih (fun e he => hw e (List.mem_cons_of_mem _ he)) hi b h2
      linarith [h1.symm.le, h1.le]

theorem chainFrom_mem_bounds {rs : List (α × ℚ × ℚ)}
    (hw : ∀ e ∈ rs, e.2.1 ≤ e.2.2) :
    ∀ a b, chainFrom a rs b → ∀ e ∈ rs, a ≤ e.2.1 ∧ e.2.2 ≤ b := by
  induction rs with
  | nil => intro a b h e he; simp at he
  | cons e0 rest ih =>
      obtain ⟨s, lo, hi⟩ := e0
      rintro a b ⟨h1, h2⟩ e he
      have hw' : ∀ e ∈ rest, e.2.1 ≤ e.2.2 := fun e he => hw e (List.mem_cons_of_mem _ he)
      rcases List.mem_cons.mp he with rfl | h3
      · refine ⟨le_of_eq h1.symm, ?_⟩
        exact chainFrom_le hw' hi b h2
      · obtain ⟨hb1, hb2⟩ := ih hw' hi b h2 e h3
        have hlohi : lo ≤ hi := hw (s, lo, hi) (by simp)
        exact ⟨le_trans (le_of_eq h1.symm) (le_trans hlohi hb1), hb2⟩

theorem chainFrom_coverage {rs : List (α × ℚ × ℚ)}
    (hw : ∀ e ∈ rs, e.2.1 ≤ e.2.2) :
    ∀ a b, chainFrom a rs b →
      ∀ q, (a ≤ q ∧ q < b) ↔ ∃ e ∈ rs, e.2.1 ≤ q ∧ q < e.2.2 := by
  induction rs with
  | nil =>
      intro a b h q
      have h' : a = b := h
      constructor
      · rintro ⟨h1, h2⟩
        exact absurd h2 (not_lt.mpr (h' ▸ h1))
      · rintro ⟨e, he, _⟩
        simp at he
  | cons e0 rest ih =>
      obtain ⟨s, lo, hi⟩ := e0
      rintro a b ⟨h1, h2⟩ q
      have hw' : ∀ e ∈ rest, e.2.1 ≤ e.2.2 := fun e he => hw e (List.mem_cons_of_mem _ he)
      constructor
      · rintro ⟨hq1, hq2⟩
        by_cases hq3 : q < hi
        · exact ⟨(s, lo, hi), by simp, by rw [h1]; exact hq1, hq3⟩
        · obtain ⟨e, he, hee⟩ := ((ih hw' hi b h2 q).mp ⟨not_lt.mp hq3, hq2⟩)
          exact ⟨e, List.mem_cons_of_mem _ he, hee⟩
      · rintro ⟨e, he, he1, he2⟩
        rcases List.mem_cons.mp he with rfl | h3
        · simp only [] at he1 he2
          refine ⟨by rw [← h1]; exact he1, ?_⟩
          have := chainFrom_le hw' hi b h2
          exact lt_of_lt_of_le he2 this
        · obtain ⟨hb1, hb2⟩ := chainFrom_mem_bounds hw' hi b h2 e h3
          have h4 := (ih hw' hi b h2 q).mpr ⟨e, h3, he1, he2⟩
          have h5 : lo ≤ hi := hw (s, lo, hi) (by simp)
          exact ⟨by rw [← h1]; linarith [h4.1], h4.2⟩

theorem chainFrom_pairwise {rs : List (α × ℚ × ℚ)}
    (hw : ∀ e ∈ rs, e.2.1 ≤ e.2.2) :
    ∀ a b, chainFrom a rs b →
      rs.Pairwise (fun e1 e2 => e1.2.2 ≤ e2.2.1) := by
  induction rs with
  | nil => intro a b h; exact List.Pairwise.nil
  | cons e0 rest ih =>
      obtain ⟨s, lo, hi⟩ := e0
      rintro a b ⟨h1, h2⟩
      have hw' : ∀ e ∈ rest, e.2.1 ≤ e.2.2 := fun e he => hw e (List.mem_cons_of_mem _ he)
      refine List.Pairwise.cons ?_ (ih hw' hi b h2)
      intro e he
      exact (chainFrom_mem_bounds hw' hi b h2 e he).1

/-- `encode`, after its three precondition checks pass, is the narrowing loop
followed by the minimal-fraction selection. -/
theorem encode_eq_of_checks (S : List α) (eof : α) (precision : ℕ)
    (pt : List (α × ℚ)) (heofS : eof ∈ S) (heofT : eof ∈ keysOf pt)
    (htol : pyAbs (sumProbs pt - 1) < 1 / pow10 5) :
    encode S eof precision (some pt) =
      (match narrowLoop pt S (initRangeTable pt) none with
        | .error e => .error e
        | .ok (lower, upper) =>
            match minimizeEntropy precision lower upper with
            | none => .error .precisionOut
            | some (x, k) => .ok ⟨fracToDecimalField x k, pt, eof⟩) := by
  simp only [encode, if_pos heofS, if_pos heofT, if_pos htol]

/-- A successful `encode` run with a supplied table. -/
theorem encode_ok {S : List α} {eof : α} {precision : ℕ} {pt : List (α × ℚ)}
    {x : ℚ} {k : ℕ} (heofS : eof ∈ S) (heofT : eof ∈ keysOf pt)
    (htol : pyAbs (sumProbs pt - 1) < 1 / pow10 5)
    (hkeys : ∀ s ∈ S, s ∈ keysOf pt)
    (hmin : minimizeEntropy precision (encLow pt S)
      (encLow pt S + sumProbs pt * encW pt S) = some (x, k)) :
    encode S eof precision (some pt) = .ok ⟨fracToDecimalField x k, pt, eof⟩ := by
  rw [encode_eq_of_checks S eof precision pt heofS heofT htol,
    narrowLoop_init (List.ne_nil_of_mem heofS) hkeys]
  show (match minimizeEntropy precision (encLow pt S)
      (encLow pt S + sumProbs pt * encW pt S) with
    | none => (Except.error PyErr.precisionOut :
        Except PyErr (ArithmeticEncodingReturn α))
    | some (x, k) => Except.ok ⟨fracToDecimalField x k, pt, eof⟩) =
      Except.ok ⟨fracToDecimalField x k, pt, eof⟩
  rw [hmin]

theorem encode_error_no_eof {S : List α} {eof : α} (h : eof ∉ S)
    (precision : ℕ) (pt? : Option (List (α × ℚ))) :
    encode S eof precision pt? = .error .assertFailed := by
  unfold encode
  rw [if_neg h]

theorem encode_error_eof_table {S : List α} {eof : α} {t : List (α × ℚ)}
    (hS : eof ∈ S) (h : eof ∉ keysOf t) (precision : ℕ) :
    encode S eof precision (some t) = .error .assertFailed := by
  simp only [encode, if_pos hS, if_neg h]

theorem encode_error_sum {S : List α} {eof : α} {t : List (α × ℚ)}
    (hS : eof ∈ S) (hT : eof ∈ keysOf t)
    (h : ¬ pyAbs (sumProbs t - 1) < 1 / pow10 5) (precision : ℕ) :
    encode S eof precision (some t) = .error .assertFailed := by
  simp only [encode, if_pos hS, if_pos hT, if_neg h]

/-- Once the three checks pass, `encode` never raises the check failure:
any later error is the narrowing `KeyError` or precision exhaustion. -/
theorem encode_not_assert {S : List α} {eof : α} {t : List (α × ℚ)}
    (hS : eof ∈ S) (hT : eof ∈ keysOf t)
    (h : pyAbs (sumProbs t - 1) < 1 / pow10 5) (precision : ℕ) :
    encode S eof precision (some t) ≠ .error .assertFailed := by
  rw [encode_eq_of_checks S eof precision t hS hT h]
  rcases hn : narrowLoop t S (initRangeTable t) none with e | lu
  · have hno := @narrowLoop_no_assert α _ t S (initRangeTable t) none
      (List.ne_nil_of_mem hS)
    rw [hn] at hno
    show (Except.error e : Except PyErr (ArithmeticEncodingReturn α)) ≠
      .error .assertFailed
    intro hcontra
    apply hno
    rw [Except.error.inj hcontra]
  · obtain ⟨lower, upper⟩ := lu
    show (match minimizeEntropy precision lower upper with
      | none => (Except.error PyErr.precisionOut :
          Except PyErr (ArithmeticEncodingReturn α))
      | some (x, k) => Except.ok ⟨fracToDecimalField x k, t, eof⟩) ≠
        .error .assertFailed
    rcases hm : minimizeEntropy precision lower upper with _ | ⟨x, k⟩
    · simp
    · simp

theorem pow10_eq (k : ℕ) : pow10 k = (10 : ℚ) ^ k := by
  rw [pow10]
  push_cast
  ring

/-- The three symbols of the spec's concrete scenario. -/
inductive Sym : Type
  | R : Sym
  | G : Sym
  | B : Sym
  deriving DecidableEq, Repr

/-- The concrete table `{R: 0.4, G: 0.5, B: 0.1}` of the handwritten test. -/
def pt0 : List (Sym × ℚ) := [(Sym.R, 2 / 5), (Sym.G, 1 / 2), (Sym.B, 1 / 10)]

/-- A supplied table whose probability sum deviates from `1` by exactly
`1e-5`. -/
def ptBoundary : List (Sym × ℚ) := [(Sym.R, 1 / 2), (Sym.B, 50001 / 100000)]

/-- A valid table (sum within tolerance) whose probability sum falls short of
`1` by `1e-6`. -/
def ptDeficit : List (Sym × ℚ) := [(Sym.R, 1 / 2), (Sym.G, 499999 / 1000000)]

/-- A valid two-symbol table `{R: 0.1, B: 0.9}` driving the selector into the
scientific-notation regime. -/
def ptTiny : List (Sym × ℚ) := [(Sym.R, 1 / 10), (Sym.B, 9 / 10)]

/-- Fidelity of the digit-field model in the scientific-notation regime: for
seven `R`s and the marker over `{R: 0.1, B: 0.9}` the final interval is
`[1e-8, 1e-7)`, the selector returns `Decimal("1E-8")`, `str(...)[2:]` keeps
the characters `-8`, and `decode`'s `Decimal("0.-8")` raises
`InvalidOperation` — the round-trip fails at every precision, which is why
the round-trip claim needs its plain-notation hypothesis. -/
theorem encode_scientific_notation_garbage :
    encode [Sym.R, Sym.R, Sym.R, Sym.R, Sym.R, Sym.R, Sym.R, Sym.B] Sym.B 100
      (some ptTiny) =
      .ok ⟨[DecChar.minus, DecChar.digit 8], ptTiny, Sym.B⟩ ∧
      ∀ fuel, decode ⟨[DecChar.minus, DecChar.digit 8], ptTiny, Sym.B⟩ fuel =
        none := by
  constructor
  · with_unfolding_all decide
  · intro fuel
    rfl

/-! ## The claims -/

/-- C1 (corrected): round-trip law.  As stated the claim is false — see
`arith_c1_counterexample` — because a marker that re-occurs before the end
stops `decode` early.  Amended: for every symbol sequence `S` in which the
end-of-sequence marker occurs exactly once, namely as the last element, and
every probability table for `S`'s alphabet with distinct keys, positive
probabilities, sum within the tolerance the code accepts (strictly below
`1e-5` deviation) and not exceeding `1`, and provided the selected fraction
stays in `str`'s plain-notation regime — the final interval either starts at
`1e-6` or above, or contains a multiple of `1e-6`, so the selected value is
not below `1e-6` with seven or more digits (otherwise the artifact's sliced
scientific string is garbage and decoding fails, see
`encode_scientific_notation_garbage`) — there are a precision (search fuel)
and a decode fuel under which `decode` of `encode`'s artifact returns exactly
`S`. -/
theorem arith_c1_roundtrip (S : List α) (pt : List (α × ℚ)) (eof : α)
    (hlast : S.getLast? = some eof) (hmid : eof ∉ S.dropLast)
    (hkeys : ∀ s ∈ S, s ∈ keysOf pt) (heofT : eof ∈ keysOf pt)
    (hnd : (keysOf pt).Nodup) (hpos : ∀ q ∈ pt.map Prod.snd, 0 < q)
    (htol : |sumProbs pt - 1| < 1 / pow10 5) (hle : sumProbs pt ≤ 1)
    (hplain : 1 / pow10 6 ≤ encLow pt S ∨
      ceilMul (encLow pt S) 6 < encLow pt S + sumProbs pt * encW pt S) :
    ∃ (precision fuel : ℕ) (art : ArithmeticEncodingReturn α),
      encode S eof precision (some pt) = .ok art ∧ decode art fuel = some S := by
  have hpos' : ∀ a p, (a, p) ∈ pt → 0 < p :=
    fun a p h => hpos p (List.mem_map_of_mem Prod.snd h)
  have hne : S ≠ [] := by intro h; rw [h] at hlast; simp at hlast
  have heofS : eof ∈ S := by
    have hgl := List.getLast?_eq_getLast S hne
    rw [hgl] at hlast
    have h2 : S.getLast hne = eof := by injection hlast
    rw [← h2]
    exact List.getLast_mem hne
  set L := encLow pt S with hL
  set W := encW pt S with hW
  set σ := sumProbs pt with hσ
  have hW0 : 0 < W := encW_pos pt hpos' S hkeys
  have hL0 : 0 ≤ L := encLow_nonneg pt hpos' S hkeys
  have hLW1 : L + W ≤ 1 := encLow_add_encW_le_one pt hpos' hle S hkeys
  have hσ0 : 0 < σ := by
    have h1 := abs_lt.mp htol
    have h2 : (1 : ℚ) / pow10 5 ≤ 1 := by norm_num [pow10]
    linarith [h1.1]
  have hU : L < L + σ * W := by nlinarith
  have hU1 : L + σ * W ≤ 1 := by nlinarith
  obtain ⟨n, hn⟩ := pow_unbounded_of_one_lt (1 / (σ * W)) (by norm_num : (1 : ℚ) < 10)
  have hpow : (10 : ℚ) ^ n ≤ (10 : ℚ) ^ (n + 1) := by
    exact pow_le_pow_right (by norm_num) (by omega)
  have h1 : 1 < 10 ^ n * (σ * W) := by
    rw [div_lt_iff (by positivity)] at hn
    linarith [hn]
  have hjump : 1 / pow10 (n + 1) < σ * W := by
    rw [pow10_eq, div_lt_iff (by positivity)]
    nlinarith
  have hP : ceilMul L (n + 1) < L + σ * W :=
    lt_of_le_of_lt (ceilMul_le L (n + 1)) (by linarith)
  have hsome := minimizeAux_some hU (n + 1) 1 (n + 1) (by omega) hP (by omega)
  obtain ⟨⟨x, k⟩, hx⟩ := Option.isSome_iff_exists.mp hsome
  obtain ⟨hxc, hk1, hPk, hall⟩ := minimizeAux_spec hU (n + 1) 1 x k hx
  have hxL : L ≤ x := hxc ▸ ceilMul_ge L k
  have hxU : x < L + σ * W := hxc ▸ hPk
  have hx1 : x < 1 := lt_of_lt_of_le hxU hU1
  have hx0 : 0 ≤ x := le_trans hL0 hxL
  have hden : (x * pow10 k).den = 1 := by
    rw [hxc, ceilMul, div_mul_cancel₀ _ (ne_of_gt (pow10_pos k))]
    exact Rat.den_intCast _
  have hxmul : x * pow10 k = ((⌈L * pow10 k⌉ : ℤ) : ℚ) := by
    rw [hxc, ceilMul, div_mul_cancel₀ _ (ne_of_gt (pow10_pos k))]
  have hceil0 : 0 ≤ ⌈L * pow10 k⌉ :=
    Int.ceil_nonneg (mul_nonneg hL0 (le_of_lt (pow10_pos k)))
  have hnumtoNat : (((x * pow10 k).num.toNat : ℕ) : ℚ) = x * pow10 k := by
    rw [hxmul, Rat.num_intCast]
    exact_mod_cast congrArg (Int.cast : ℤ → ℚ) (Int.toNat_of_nonneg hceil0)
  have hplain5 : k ≤ numDigits (x * pow10 k).num.toNat + 5 := by
    rcases Nat.lt_or_ge 6 k with hk7 | hk7
    · rcases hplain with h6 | hP6
      · have hsplit : pow10 (k - 6) * pow10 6 = pow10 k := by
          rw [pow10_eq, pow10_eq, pow10_eq, ← pow_add]
          congr 1
          omega
        have hne6 : pow10 6 ≠ 0 := ne_of_gt (pow10_pos 6)
        have h9 : (1 / pow10 6) * pow10 k = pow10 (k - 6) := by
          rw [← hsplit]
          field_simp
        have h7 : pow10 (k - 6) ≤ x * pow10 k := by
          rw [← h9]
          exact mul_le_mul_of_nonneg_right (le_trans h6 hxL)
            (le_of_lt (pow10_pos k))
        have h10 : (10 : ℕ) ^ (k - 6) ≤ (x * pow10 k).num.toNat := by
          have h11 : ((10 ^ (k - 6) : ℕ) : ℚ) ≤
              (((x * pow10 k).num.toNat : ℕ) : ℚ) := by
            rw [hnumtoNat]
            exact le_trans (le_of_eq rfl) h7
          exact_mod_cast h11
        have h12 := numDigits_ge h10
        omega
      · exact absurd hP6 (hall 6 (by omega) (by omega))
    · have := numDigits_pos (x * pow10 k).num.toNat
      omega
  have hx' : minimizeEntropy (n + 1) L (L + σ * W) = some (x, k) := hx
  refine ⟨n + 1, S.length, ⟨fracToDecimalField x k, pt, eof⟩, ?_, ?_⟩
  · exact encode_ok heofS heofT (by rw [pyAbs_eq_abs]; exact htol) hkeys hx'
  · have hdec : decode (⟨fracToDecimalField x k, pt, eof⟩ : ArithmeticEncodingReturn α)
        S.length =
        (match parsePyDecimalFrac (fracToDecimalField x k) with
          | none => none
          | some fraction =>
              decodeLoop (rangeLowerList 0 pt) (keysOf pt) pt eof S.length
                fraction []) := rfl
    rw [hdec, parse_fracToDecimalField hx0 hx1 hk1 hden hplain5]
    show decodeLoop (rangeLowerList 0 pt) (keysOf pt) pt eof S.length x [] = some S
    have hxW : x < L + W := by nlinarith
    rw [decodeLoop_roundtrip pt eof hpos' hnd hle S hlast hmid hkeys x [] S.length
      (le_refl _) hxL hxW]
    simp

theorem arith_c1_roundtrip_witness :
    ∃ (precision fuel : ℕ) (art : ArithmeticEncodingReturn Sym),
      encode [Sym.G, Sym.G, Sym.B] Sym.B precision (some pt0) = .ok art ∧
        decode art fuel = some [Sym.G, Sym.G, Sym.B] :=
  arith_c1_roundtrip [Sym.G, Sym.G, Sym.B] pt0 Sym.B
    (by with_unfolding_all decide) (by with_unfolding_all decide)
    (by with_unfolding_all decide) (by with_unfolding_all decide)
    (by with_unfolding_all decide) (by with_unfolding_all decide)
    (by with_unfolding_all decide) (by with_unfolding_all decide)
    (by with_unfolding_all decide)

/-- C1 counterexample: for `S = [B, B]` — which ends with the marker `B`, over
the valid table of the handwritten test — `encode` succeeds, but `decode`
stops at the first `B` and returns `[B] ≠ [B, B]`. -/
theorem arith_c1_counterexample :
    encode [Sym.B, Sym.B] Sym.B 100 (some pt0) =
      .ok ⟨[DecChar.digit 9, DecChar.digit 9], pt0, Sym.B⟩ ∧
      decode ⟨[DecChar.digit 9, DecChar.digit 9], pt0, Sym.B⟩ 100 =
        some [Sym.B] ∧
      [Sym.B] ≠ [Sym.B, Sym.B] := by
  with_unfolding_all decide

/-- C2 (confirmed): the spec's concrete scenario.  Encoding `[G, G, B]` with
the table `{R: 0.4, G: 0.5, B: 0.1}` and marker `B` yields the digit string
`"83"` (the digits `[8, 3]`, i.e. the fraction `0.83`), and decoding the
artifact returns exactly `[G, G, B]`. -/
theorem arith_c2_handwritten :
    encode [Sym.G, Sym.G, Sym.B] Sym.B 100 (some pt0) =
      .ok ⟨[DecChar.digit 8, DecChar.digit 3], pt0, Sym.B⟩ ∧
      parsePyDecimalFrac [DecChar.digit 8, DecChar.digit 3] = some (83 / 100) ∧
      decode ⟨[DecChar.digit 8, DecChar.digit 3], pt0, Sym.B⟩ 100 =
        some [Sym.G, Sym.G, Sym.B] := by
  with_unfolding_all decide

/-- C3 (corrected): minimality of the selected fraction.  As stated (for all
`0 ≤ lower`) the claim is false — see `arith_c3_counterexample`: at
`lower = 0` the selector returns the one-digit value `0` although the
zero-digit value `0` also lies in the interval.  Amended with `0 < lower`:
the selected value lies in `[lower, upper)` and no value of `[lower, upper)`
has a decimal expansion one digit shorter than the `k` digits of the returned
value. -/
theorem arith_c3_minimality (l u x : ℚ) (k fuel : ℕ)
    (h0 : 0 < l) (hlu : l < u) (hu : u ≤ 1)
    (hres : minimizeEntropy fuel l u = some (x, k)) :
    (l ≤ x ∧ x < u) ∧
      ∀ y : ℚ, l ≤ y → y < u → (y * pow10 (k - 1)).den ≠ 1 := by
  obtain ⟨hxc, hk1, hPk, hall⟩ := minimizeAux_spec hlu fuel 1 x k hres
  refine ⟨⟨hxc ▸ ceilMul_ge l k, hxc ▸ hPk⟩, ?_⟩
  intro y hy1 hy2 hden
  rcases Nat.lt_or_ge k 2 with hk2 | hk2
  · have hk : k = 1 := by omega
    subst hk
    have hpow0 : pow10 (1 - 1) = 1 := by norm_num [pow10]
    rw [hpow0, mul_one] at hden
    obtain ⟨z, hz⟩ : ∃ z : ℤ, y = (z : ℚ) :=
      ⟨y.num, ((Rat.den_eq_one_iff _).mp hden).symm⟩
    have hz1 : 0 < z := by
      have : (0 : ℚ) < (z : ℚ) := hz ▸ lt_of_lt_of_le h0 hy1
      exact_mod_cast this
    have hz2 : (z : ℚ) < 1 := hz ▸ lt_of_lt_of_le hy2 hu
    have : z < 1 := by exact_mod_cast hz2
    omega
  · exact no_multiple_of_notP (hall (k - 1) (by omega) (by omega)) hy1 hy2 hden

theorem arith_c3_minimality_witness :
    ((33 / 40 : ℚ) ≤ 83 / 100 ∧ (83 / 100 : ℚ) < 17 / 20) ∧
      ∀ y : ℚ, 33 / 40 ≤ y → y < 17 / 20 → (y * pow10 (2 - 1)).den ≠ 1 :=
  arith_c3_minimality (33 / 40) (17 / 20) (83 / 100) 2 100
    (by with_unfolding_all decide) (by with_unfolding_all decide)
    (by with_unfolding_all decide) (by with_unfolding_all decide)

/-- C3 counterexample: at the final interval `[0, 1/2)` (reachable, e.g., for
a first-symbol-only sequence) the selector returns the value `0` at one digit
(`k = 1`), yet the value `0`, with one digit fewer (`k - 1 = 0` digits, i.e.
an integer), also lies in `[0, 1/2)` — so the "no shorter digit string"
clause of the claim fails for `lower = 0`. -/
theorem arith_c3_counterexample :
    minimizeEntropy 100 0 (1 / 2) = some (0, 1) ∧
      (0 : ℚ) ≤ 0 ∧ (0 : ℚ) < 1 / 2 ∧ ((0 : ℚ) * pow10 (1 - 1)).den = 1 := by
  with_unfolding_all decide

/-- C4 (confirmed): termination of the minimal-fraction search.  For decimals
`0 ≤ lower < upper` where `lower` has at most `d` decimal digits (as every
`Decimal` of the source does, with `d` bounded by the caller-chosen
precision), the coarsest-first search returns a value within `d + 1`
granularity levels: some granularity becomes finer than `upper - lower`
before the search could need to pass `lower`'s own granularity. -/
theorem arith_c4_terminates (l u : ℚ) (d : ℕ) (h0 : 0 ≤ l) (hlu : l < u)
    (hd : (l * pow10 d).den = 1) :
    (minimizeEntropy (d + 1) l u).isSome = true := by
  have hK : ceilMul l (max d 1) < u := by
    rw [ceilMul_eq_self hd (le_max_left d 1)]
    exact hlu
  exact minimizeAux_some hlu (d + 1) 1 (max d 1) (le_max_right d 1) hK (by omega)

theorem arith_c4_terminates_witness :
    (minimizeEntropy (3 + 1) (33 / 40) (17 / 20)).isSome = true :=
  arith_c4_terminates (33 / 40) (17 / 20) 3 (by with_unfolding_all decide)
    (by with_unfolding_all decide) (by with_unfolding_all decide)

/-- C5 (confirmed): decode tie-breaking.  The binary search of the decode
loop selects the symbol at the greatest index whose cumulative lower bound is
`≤` the fraction; in particular a fraction exactly equal to a boundary picks
the symbol whose sub-interval starts there (the hypotheses hold with
`f = prefixSum pt i`). -/
theorem arith_c5_tie_break (pt : List (α × ℚ))
    (hpos : ∀ q ∈ pt.map Prod.snd, 0 < q) (f : ℚ) (i : ℕ) (hi : i < pt.length)
    (h1 : prefixSum pt i ≤ f)
    (h2 : i + 1 < pt.length → f < prefixSum pt (i + 1)) :
    pyGet (keysOf pt) ((bisectRight (rangeLowerList 0 pt) f : ℤ) - 1) =
      some ((pt.get ⟨i, hi⟩).1) := by
  have hpos' : ∀ a p, (a, p) ∈ pt → 0 < p :=
    fun a p h => hpos p (List.mem_map_of_mem Prod.snd h)
  rw [bisectRight_greatest pt hpos' f i hi h1 h2]
  have hv : ((i + 1 : ℕ) : ℤ) - 1 = (i : ℤ) := by push_cast; ring
  rw [hv, pyGet_natCast, keysOf, List.get?_map, List.get?_eq_get hi,
    Option.map_some']

/-- C5 witness at a boundary: the fraction `0.4` is exactly the cumulative
lower bound of `G` in the table `{R: 0.4, G: 0.5, B: 0.1}`, and the loop
emits `G` (the symbol whose sub-interval starts at `0.4`), not `R` (whose
sub-interval ends there). -/
theorem arith_c5_tie_break_witness :
    pyGet (keysOf pt0) ((bisectRight (rangeLowerList 0 pt0) (2 / 5) : ℤ) - 1) =
      some Sym.G :=
  arith_c5_tie_break pt0 (by with_unfolding_all decide) (2 / 5) 1
    (by with_unfolding_all decide) (by with_unfolding_all decide)
    (by with_unfolding_all decide)

/-- C6 (confirmed): fail-fast precondition checking.  In each listed
violation case, `encode` returns the check failure (`assertFailed`, the
Python `AssertionError`) — never the narrowing-stage `KeyError` — showing the
checks run before any narrowing work: marker missing from the sequence;
marker missing from a supplied table; supplied probabilities deviating from
`1` by more than `1e-5`; and the empty sequence under automatic frequency
estimation (where the marker-membership check already fails). -/
theorem arith_c6_fail_fast (S : List α) (eof : α) (precision : ℕ)
    (pt? : Option (List (α × ℚ))) :
    (eof ∉ S → encode S eof precision pt? = .error .assertFailed) ∧
      (∀ t, pt? = some t → eof ∉ keysOf t →
        encode S eof precision pt? = .error .assertFailed) ∧
      (∀ t, pt? = some t → |sumProbs t - 1| > 1 / pow10 5 →
        encode S eof precision pt? = .error .assertFailed) ∧
      (pt? = none → S = [] → encode S eof precision pt? = .error .assertFailed) := by
  refine ⟨fun h => encode_error_no_eof h precision pt?, ?_, ?_, ?_⟩
  · rintro t rfl h
    by_cases hS : eof ∈ S
    · exact encode_error_eof_table hS h precision
    · exact encode_error_no_eof hS precision (some t)
  · rintro t rfl h
    by_cases hS : eof ∈ S
    · by_cases hT : eof ∈ keysOf t
      · refine encode_error_sum hS hT ?_ precision
        rw [pyAbs_eq_abs]
        exact not_lt.mpr (le_of_lt h)
      · exact encode_error_eof_table hS hT precision
    · exact encode_error_no_eof hS precision (some t)
  · rintro rfl rfl
    exact encode_error_no_eof (by simp) precision none

theorem arith_c6_fail_fast_witness :
    encode [Sym.G] Sym.B 100 (none : Option (List (Sym × ℚ))) =
      .error .assertFailed :=
  (arith_c6_fail_fast [Sym.G] Sym.B 100 none).1 (by with_unfolding_all decide)

/-- C7 (corrected): the tolerance check is strict.  As stated the claim is
false — see `arith_c7_counterexample`: the code accepts a supplied table
exactly when the deviation of its probability sum from `1` is STRICTLY less
than `1e-5`, so a deviation of exactly `1e-5` is rejected, not accepted.
Amended: given the marker checks pass, `encode` fails the sum validation
(returns the check failure) if and only if the deviation is not strictly
below `1e-5`. -/
theorem arith_c7_tolerance (S : List α) (eof : α) (precision : ℕ)
    (t : List (α × ℚ)) (hS : eof ∈ S) (hT : eof ∈ keysOf t) :
    encode S eof precision (some t) = .error .assertFailed ↔
      ¬ |sumProbs t - 1| < 1 / pow10 5 := by
  constructor
  · intro h htol
    exact encode_not_assert hS hT (by rw [pyAbs_eq_abs]; exact htol) precision h
  · intro h
    exact encode_error_sum hS hT (by rw [pyAbs_eq_abs]; exact h) precision

theorem arith_c7_tolerance_witness :
    encode [Sym.B] Sym.B 100 (some ptBoundary) = .error .assertFailed ↔
      ¬ |sumProbs ptBoundary - 1| < 1 / pow10 5 :=
  arith_c7_tolerance [Sym.B] Sym.B 100 ptBoundary (by with_unfolding_all decide)
    (by with_unfolding_all decide)

/-- C7 counterexample: a supplied table containing the marker whose sum is
`1.00001` — deviation exactly `1e-5`, which the claim says is accepted — is
rejected by the code's strict `< 1e-5` check. -/
theorem arith_c7_counterexample :
    |sumProbs ptBoundary - 1| = 1 / pow10 5 ∧
      encode [Sym.B] Sym.B 100 (some ptBoundary) = .error .assertFailed := by
  constructor
  · have hs : sumProbs ptBoundary = 100001 / 100000 := by
      norm_num [sumProbs, ptBoundary]
    rw [hs, show (100001 / 100000 : ℚ) - 1 = 1 / 100000 by norm_num,
      abs_of_pos (by norm_num)]
    norm_num [pow10]
  · with_unfolding_all decide

/-- C8 (corrected): cumulative-range partition invariant.  As stated (for
every non-empty probability table, i.e. any table valid within the `1e-5`
tolerance) the claim is false — see `arith_c8_counterexample`: when the sum
is not exactly `1` the sub-ranges cover `[lower, lower + sum·(upper-lower))`,
not `[lower, upper)`.  Amended with the sum equal to exactly `1`: both at
initialization over `[0, 1)` and after every narrowing update over the
selected symbol's sub-interval `[l, u)`, the sub-ranges are contiguous
(`chainFrom`), cover exactly the parent interval, and are pairwise
non-overlapping (ordered). -/
theorem arith_c8_partition (pt : List (α × ℚ)) (hne : pt ≠ [])
    (hpos : ∀ q ∈ pt.map Prod.snd, 0 < q) (hsum1 : sumProbs pt = 1) :
    (chainFrom 0 (initRangeTable pt) 1 ∧
      (∀ y : ℚ, (0 ≤ y ∧ y < 1) ↔
        ∃ e ∈ initRangeTable pt, e.2.1 ≤ y ∧ y < e.2.2) ∧
      (initRangeTable pt).Pairwise (fun e1 e2 => e1.2.2 ≤ e2.2.1)) ∧
    ∀ (rt : List (α × ℚ × ℚ)) (s : α) (l u : ℚ),
      lookupQ rt s = some (l, u) → l ≤ u →
      ∃ rt2, updateRangeTable rt pt s = some (rt2, l, u) ∧
        chainFrom l rt2 u ∧
        (∀ y : ℚ, (l ≤ y ∧ y < u) ↔ ∃ e ∈ rt2, e.2.1 ≤ y ∧ y < e.2.2) ∧
        rt2.Pairwise (fun e1 e2 => e1.2.2 ≤ e2.2.1) := by
  have hpos' : ∀ a p, (a, p) ∈ pt → 0 < p :=
    fun a p h => hpos p (List.mem_map_of_mem Prod.snd h)
  have hwidths : ∀ (prev w : ℚ), 0 ≤ w → ∀ e ∈ scaledRanges prev w pt,
      e.2.1 ≤ e.2.2 := by
    intro prev w hw e he
    obtain ⟨p, hmem, hwid⟩ := mem_scaledRanges pt prev w e he
    have hp := hpos' e.1 p hmem
    rw [hwid]
    nlinarith
  constructor
  · have hfin : scaledFinal 0 1 pt = 1 := by
      rw [scaledFinal_eq, hsum1]
      ring
    have hchain : chainFrom 0 (initRangeTable pt) 1 := by
      have hchain0 := chainFrom_scaledRanges pt 0 1
      rw [hfin] at hchain0
      rw [initRangeTable, initRanges_eq_scaledRanges]
      exact hchain0
    have hw : ∀ e ∈ initRangeTable pt, e.2.1 ≤ e.2.2 := by
      rw [initRangeTable, initRanges_eq_scaledRanges]
      exact hwidths 0 1 (by norm_num)
    exact ⟨hchain, chainFrom_coverage hw 0 1 hchain,
      chainFrom_pairwise hw 0 1 hchain⟩
  · intro rt s l u hlook hlu
    have hemp : pt.isEmpty = false := by
      cases pt with
      | nil => exact absurd rfl hne
      | cons hd tl => rfl
    have hfin : scaledFinal l (u - l) pt = u := by
      rw [scaledFinal_eq, hsum1]
      ring
    have hchain : chainFrom l (scaledRanges l (u - l) pt) u := by
      have hchain0 := chainFrom_scaledRanges pt l (u - l)
      rw [hfin] at hchain0
      exact hchain0
    refine ⟨scaledRanges l (u - l) pt, ?_, hchain, ?_, ?_⟩
    · rw [updateRangeTable, hlook]
      simp only [hemp, Bool.false_eq_true, if_false, hfin]
    · exact chainFrom_coverage (hwidths l (u - l) (by linarith)) l u hchain
    · exact chainFrom_pairwise (hwidths l (u - l) (by linarith)) l u hchain

theorem arith_c8_partition_witness :
    chainFrom 0 (initRangeTable pt0) 1 ∧
      ∃ rt2, updateRangeTable (initRangeTable pt0) pt0 Sym.G =
          some (rt2, 2 / 5, 9 / 10) ∧
        chainFrom (2 / 5) rt2 (9 / 10) ∧
        (∀ y : ℚ, (2 / 5 ≤ y ∧ y < 9 / 10) ↔
          ∃ e ∈ rt2, e.2.1 ≤ y ∧ y < e.2.2) ∧
        rt2.Pairwise (fun e1 e2 => e1.2.2 ≤ e2.2.1) :=
  ⟨(arith_c8_partition pt0 (by with_unfolding_all decide)
      (by with_unfolding_all decide) (by with_unfolding_all decide)).1.1,
    (arith_c8_partition pt0 (by with_unfolding_all decide)
      (by with_unfolding_all decide) (by with_unfolding_all decide)).2
      (initRangeTable pt0) Sym.G (2 / 5) (9 / 10)
      (by with_unfolding_all decide) (by with_unfolding_all decide)⟩

/-- C8 counterexample: the table `{R: 0.5, G: 0.499999}` is non-empty and
valid (sum deviation `1e-6 < 1e-5`), yet its initial cumulative ranges are
`R: [0, 0.5)`, `G: [0.5, 0.999999)` — the point `0.9999995` of the parent
interval `[0, 1)` is covered by neither, so the ranges do not cover exactly
`[0, 1)`. -/
theorem arith_c8_counterexample :
    |sumProbs ptDeficit - 1| < 1 / pow10 5 ∧
      initRangeTable ptDeficit =
        [(Sym.R, 0, 1 / 2), (Sym.G, 1 / 2, 999999 / 1000000)] ∧
      (0 : ℚ) ≤ 1999999 / 2000000 ∧ (1999999 / 2000000 : ℚ) < 1 ∧
      ¬ ((0 : ℚ) ≤ 1999999 / 2000000 ∧ (1999999 / 2000000 : ℚ) < 1 / 2) ∧
      ¬ ((1 / 2 : ℚ) ≤ 1999999 / 2000000 ∧
        (1999999 / 2000000 : ℚ) < 999999 / 1000000) := by
  refine ⟨?_, ?_, by norm_num, by norm_num, by norm_num, by norm_num⟩
  · have hs : sumProbs ptDeficit = 999999 / 1000000 := by
      norm_num [sumProbs, ptDeficit]
    rw [hs, show (999999 / 1000000 : ℚ) - 1 = -(1 / 1000000) by norm_num,
      abs_neg, abs_of_pos (by norm_num)]
    norm_num [pow10]
  · norm_num [initRangeTable, initRanges, ptDeficit]

/-- C9 (confirmed): whenever `decode` terminates with an output, the output
is non-empty, ends with the artifact's end-of-sequence marker (the marker is
appended before the loop stops), and every emitted element is a symbol of the
artifact's probability table. -/
theorem arith_c9_decode_marker {art : ArithmeticEncodingReturn α} {fuel : ℕ}
    {out : List α} (h : decode art fuel = some out) :
    out ≠ [] ∧ out.getLast? = some art.end_of_sequence ∧
      ∀ a ∈ out, a ∈ keysOf art.probability_table := by
  have h' : (match parsePyDecimalFrac art.decimal with
      | none => none
      | some fraction =>
          decodeLoop (rangeLowerList 0 art.probability_table)
            (keysOf art.probability_table) art.probability_table
            art.end_of_sequence fuel fraction []) = some out := h
  rcases hp : parsePyDecimalFrac art.decimal with _ | fraction
  · rw [hp] at h'
    simp at h'
  · rw [hp] at h'
    obtain ⟨tail, htail, hne, hlast, hsub⟩ :=
      decodeLoop_shape _ _ _ _ fuel _ [] out h'
    rw [htail, List.nil_append]
    exact ⟨hne, hlast, hsub⟩

theorem arith_c9_decode_marker_witness :
    [Sym.G, Sym.G, Sym.B] ≠ [] ∧
      [Sym.G, Sym.G, Sym.B].getLast? =
        some (ArithmeticEncodingReturn.end_of_sequence
          ⟨[DecChar.digit 8, DecChar.digit 3], pt0, Sym.B⟩) ∧
      ∀ a ∈ [Sym.G, Sym.G, Sym.B],
        a ∈ keysOf (ArithmeticEncodingReturn.probability_table
          ⟨[DecChar.digit 8, DecChar.digit 3], pt0, Sym.B⟩) :=
  @arith_c9_decode_marker Sym _ ⟨[DecChar.digit 8, DecChar.digit 3], pt0, Sym.B⟩
    100 [Sym.G, Sym.G, Sym.B] (by with_unfolding_all decide)

/-- C10 (confirmed): a supplied table that passes validation (contains the
marker, sum within tolerance) but omits a symbol occurring in the sequence
does not fail fast — `encode` fails during interval narrowing with the
key-lookup error (`KeyError`), not with the check failure. -/
theorem arith_c10_missing_symbol (S : List α) (eof : α) (precision : ℕ)
    (t : List (α × ℚ)) (hS : eof ∈ S) (hT : eof ∈ keysOf t)
    (htol : |sumProbs t - 1| < 1 / pow10 5)
    (hmiss : ∃ s ∈ S, s ∉ keysOf t) :
    encode S eof precision (some t) = .error .keyError := by
  rw [encode_eq_of_checks S eof precision t hS hT (by rw [pyAbs_eq_abs]; exact htol),
    initRangeTable, initRanges_eq_scaledRanges,
    narrowLoop_keyError S hmiss 0 1 none]

theorem arith_c10_missing_symbol_witness :
    encode [Sym.G, Sym.B] Sym.B 100 (some [(Sym.R, 2 / 5), (Sym.B, 3 / 5)]) =
      .error .keyError :=
  arith_c10_missing_symbol [Sym.G, Sym.B] Sym.B 100 [(Sym.R, 2 / 5), (Sym.B, 3 / 5)]
    (by with_unfolding_all decide) (by with_unfolding_all decide)
    (by with_unfolding_all decide) (by with_unfolding_all decide)

end ArithmeticCoding
